import Mathlib

/-! tsh: a tiny shell with job control.

A shallow embedding of the job-control core of `src/tsh.c` and theorems about it.

Conventions of the embedding.

* C `int` and `pid_t` values are `Int`.  The only arithmetic the job code performs is
  `nextjid++` and `maxjid(jobs)+1` on small values, so no wrap-around is modelled.
* The global array `jobs[MAXJOBS]` is the list of its slots in index order.  Every loop
  `for (i = 0; i < MAXJOBS; i++)` of the job helpers scans that list from slot 0 upwards;
  a table of the program has `MAXJOBS` slots (`initjobs_length`, and every operation keeps
  the length).
* A pointer `struct job_t *` into the table is the index of the slot it points to,
  `NULL` is `none`.
* The global variables (`jobs`, `nextjid`, `verbose`) together with the text written to
  stdout and the signals sent with `kill` form the record `Shell`.
* A command line is a `String`; `main` reads it with `fgets(cmdline, MAXLINE, stdin)`, so
  `strcpy` into `job_t.cmdline` (a buffer of `MAXLINE` bytes) copies it whole.
-/

namespace Tsh

/-! ## Manifest constants (tsh.c:19-29) -/

/-- The constant `MAXJOBS` of tsh.c:22, max jobs at any point in time. -/
def MAXJOBS : Nat := 16

/-- Job state `UNDEF` (tsh.c:26). -/
def UNDEF : Int := 0
/-- Job state `FG`, running in foreground (tsh.c:27). -/
def FG : Int := 1
/-- Job state `BG`, running in background (tsh.c:28). -/
def BG : Int := 2
/-- Job state `ST`, stopped (tsh.c:29). -/
def ST : Int := 3

/-- The signal number of `SIGCONT` from `<signal.h>` (18 on Linux). -/
def SIGCONT : Int := 18

/-! ## Data model (tsh.c:41-55) -/

/-- The job struct `struct job_t` (tsh.c:48-53). -/
structure job_t where
  /-- job PID -/
  pid : Int
  /-- job ID [1, 2, ...] -/
  jid : Int
  /-- UNDEF, BG, FG, or ST -/
  state : Int
  /-- command line -/
  cmdline : String
  deriving DecidableEq, Repr

/-- The global variables of tsh.c:41-55 that the job code reads and writes, with the two
effects it has on the outside: the text printed on stdout and the signals sent by `kill`
(each a pair of the `pid` argument and the signal number). -/
structure Shell where
  /-- The job list `jobs[MAXJOBS]` -/
  jobs : List job_t
  /-- next job ID to allocate -/
  nextjid : Int
  /-- if true (non-zero), print additional output -/
  verbose : Int
  /-- everything printed so far -/
  out : String
  /-- every `kill(pid, sig)` issued so far, oldest first -/
  sent : List (Int × Int)
  deriving DecidableEq, Repr

/-- The statement `printf(...)` appends the formatted text to stdout. -/
def printf (g : Shell) (s : String) : Shell :=
  { g with out := g.out ++ s }

/-- The call `kill(pid, sig)` delivers `sig` to `pid` (a process group when negative). -/
def kill (g : Shell) (pid sig : Int) : Shell :=
  { g with sent := g.sent ++ [(pid, sig)] }

/-- The conversion `%d` of printf. -/
def fmtd (n : Int) : String := toString n

/-! ## Helper routines that manipulate the job list (tsh.c:525-677) -/

/-- The scan shared by the helpers: `for (i = 0; i < MAXJOBS; i++) if (test(jobs[i])) ...`
stops at the first slot passing the test; the result is that slot's index, or `none` when
the loop runs to its end. -/
def first_slot (test : job_t → Bool) : List job_t → Option Nat
  | [] => none
  | j :: rest => if test j then some 0 else (first_slot test rest).map (· + 1)

/-- A write through the pointer `&jobs[i]`: slot `i` becomes `f jobs[i]`, every other slot
stays as it is. -/
def slot_update (f : job_t → job_t) : Nat → List job_t → List job_t
  | _, [] => []
  | 0, j :: rest => f j :: rest
  | i + 1, j :: rest => j :: slot_update f i rest

/-- Function `clearjob` - Clear the entries in a job struct (tsh.c:530-535). -/
def clearjob (_job : job_t) : job_t :=
  { pid := 0, jid := 0, state := UNDEF, cmdline := "" }

/-- Function `initjobs` - Initialize the job list (tsh.c:538-543). -/
def initjobs (jobs : List job_t) : List job_t :=
  jobs.map clearjob

/-- Function `maxjid` - Returns largest allocated job ID (tsh.c:546-554). -/
def maxjid (jobs : List job_t) : Int :=
  jobs.foldl (fun max j => if j.jid > max then j.jid else max) 0

/-- Function `addjob` - Add a job to the job list (tsh.c:557-580).  The result is the
return value paired with the globals after the call. -/
def addjob (g : Shell) (pid state : Int) (cmdline : String) : Int × Shell :=
  if pid < 1 then (0, g)
  else
    match first_slot (fun j => j.pid == 0) g.jobs with
    | some i =>
      let job : job_t := { pid := pid, state := state, jid := g.nextjid, cmdline := cmdline }
      let nextjid := g.nextjid + 1
      let nextjid := if nextjid > (MAXJOBS : Int) then 1 else nextjid
      let g1 : Shell :=
        { g with jobs := slot_update (fun _ => job) i g.jobs, nextjid := nextjid }
      let g2 := if g1.verbose ≠ 0 then
          printf g1 ("Added job [" ++ fmtd job.jid ++ "] " ++ fmtd job.pid ++ " "
            ++ job.cmdline ++ "\n")
        else g1
      (1, g2)
    | none => (0, printf g "Tried to create too many jobs\n")

/-- Function `deletejob` - Delete a job whose PID=pid from the job list (tsh.c:583-598). -/
def deletejob (g : Shell) (pid : Int) : Int × Shell :=
  if pid < 1 then (0, g)
  else
    match first_slot (fun j => j.pid == pid) g.jobs with
    | some i =>
      let jobs := slot_update clearjob i g.jobs
      (1, { g with jobs := jobs, nextjid := maxjid jobs + 1 })
    | none => (0, g)

/-- Function `fgpid` - Return PID of current foreground job, 0 if no such job
(tsh.c:601-608). -/
def fgpid : List job_t → Int
  | [] => 0
  | j :: rest => if j.state = FG then j.pid else fgpid rest

/-- Function `getjobpid` - Find a job (by PID) on the job list (tsh.c:611-620). -/
def getjobpid (jobs : List job_t) (pid : Int) : Option Nat :=
  if pid < 1 then none
  else first_slot (fun j => j.pid == pid) jobs

/-- Function `getjobjid` - Find a job (by JID) on the job list (tsh.c:623-633). -/
def getjobjid (jobs : List job_t) (jid : Int) : Option Nat :=
  if jid < 1 then none
  else first_slot (fun j => j.jid == jid) jobs

/-- The loop of `pid2jid` (tsh.c:642-646): the jid of the first slot holding `pid`. -/
def pid2jid_scan (pid : Int) : List job_t → Int
  | [] => 0
  | j :: rest => if j.pid = pid then j.jid else pid2jid_scan pid rest

/-- Function `pid2jid` - Map process ID to job ID (tsh.c:636-647); it reads the global
`jobs`. -/
def pid2jid (g : Shell) (pid : Int) : Int :=
  if pid < 1 then 0
  else pid2jid_scan pid g.jobs

/-! ## The SIGCHLD handler (tsh.c:450-490) -/

/-- What `waitpid` stores in `stat` for a child that changed state: it exited with a code,
was terminated by a signal, or was stopped by a signal. -/
inductive wstatus where
  | exited (code : Int)
  | signaled (sig : Int)
  | stopped (sig : Int)
  deriving DecidableEq, Repr

/-- The macro `WIFSIGNALED` of `<sys/wait.h>`. -/
def WIFSIGNALED : wstatus → Bool
  | .signaled _ => true
  | _ => false

/-- The macro `WIFSTOPPED` of `<sys/wait.h>`. -/
def WIFSTOPPED : wstatus → Bool
  | .stopped _ => true
  | _ => false

/-- The call `waitpid(-1, &stat, WNOHANG|WUNTRACED)` against the kernel's queue of children
whose state changed and was not collected yet (oldest first): it collects the first of them,
returning its pid and status and the rest of the queue, and returns 0 at once when no child
has changed state. -/
def waitpid (pending : List (Int × wstatus)) : Int × wstatus × List (Int × wstatus) :=
  match pending with
  | [] => (0, .exited 0, [])
  | (pid, stat) :: rest => (pid, stat, rest)

/-- Function `sigchld_handler` (tsh.c:457-490), run on the kernel's queue of uncollected
child state changes.  The result is the globals and the queue when the handler returns,
or `none` when it dereferences the `NULL` that `getjobpid` returned (tsh.c:478).
The `return` of tsh.c:488 is the last statement of the `while` body, so the body runs at
most once. -/
def sigchld_handler (g : Shell) (pending : List (Int × wstatus)) :
    Option (Shell × List (Int × wstatus)) :=
  match waitpid pending with
  | (pid, stat, rest) =>
    if pid > 0 then
      if WIFSIGNALED stat then
        let jobid := pid2jid g pid
        let g1 := printf g ("Job [" ++ fmtd jobid ++ "] (" ++ fmtd pid
          ++ ") terminated by signal 2\n")
        some ((deletejob g1 pid).2, rest)
      else if WIFSTOPPED stat then
        match getjobpid g.jobs pid with
        | none => none
        | some i =>
          let g1 : Shell :=
            { g with jobs := slot_update (fun j => { j with state := ST }) i g.jobs }
          let jobid := pid2jid g1 pid
          some (printf g1 ("Job [" ++ fmtd jobid ++ "] (" ++ fmtd pid
            ++ ") stopped by signal 20\n"), rest)
      else
        some ((deletejob g pid).2, rest)
    else some (g, rest)

/-! ## The builtins bg and fg, and waitfg (tsh.c:372-444) -/

/-- The test `isdigit` of `<ctype.h>`. -/
def isdigit (c : Char) : Bool := c.isDigit

/-- The test `isspace` of `<ctype.h>` in the C locale. -/
def isspace (c : Char) : Bool :=
  c.toNat = 32 || (9 ≤ c.toNat && c.toNat ≤ 13)

/-- The digits loop of `atoi`: accumulate decimal digits until the first non-digit. -/
def atoi_digits (acc : Int) : List Char → Int
  | [] => acc
  | c :: cs => if isdigit c then atoi_digits (acc * 10 + ((c.toNat : Int) - 48)) cs else acc

/-- The function `atoi` of `<stdlib.h>`: skip white space, read an optional sign and the
decimal digits that follow; 0 when there are none.  The value is taken to fit an `int`. -/
def atoi (s : List Char) : Int :=
  match s.dropWhile isspace with
  | [] => 0
  | c :: cs =>
    if c = Char.ofNat 45 then - atoi_digits 0 cs
    else if c = Char.ofNat 43 then atoi_digits 0 cs
    else atoi_digits 0 (c :: cs)

/-- The loop test of `waitfg` (tsh.c:440): `waitfg(pid)` sleeps as long as it holds and
returns as soon as it fails. -/
def waitfg (g : Shell) (pid : Int) : Bool :=
  fgpid g.jobs == pid

/-- The first half of `do_bgfg` (tsh.c:380-417): the argument checks and the lookup of the
job.  The result is the pointer `currentJob`, or `none` when the function has printed its
message and returned. -/
def do_bgfg_lookup (g : Shell) (argv : List String) : Shell × Option Nat :=
  match argv with
  | [] => (g, none)
  | [cmd] => (printf g (cmd ++ " command requires PID or %jobid argument\n"), none)
  | cmd :: arg :: _ =>
    let c0 : Char := arg.data.headD (Char.ofNat 0)
    if !isdigit c0 && c0 ≠ Char.ofNat 37 then
      (printf g (cmd ++ ": argument must be a PID or %jobid\n"), none)
    else if c0 = Char.ofNat 37 then
      match getjobjid g.jobs (atoi arg.data.tail) with
      | none => (printf g (arg ++ ": No such job\n"), none)
      | some i => (g, some i)
    else
      let pid_1 := atoi arg.data
      match getjobpid g.jobs pid_1 with
      | none => (printf g ("(" ++ fmtd pid_1 ++ "): No such process\n"), none)
      | some i => (g, some i)

/-- The job a pointer into the table points to (a cleared job for an index outside the
table, which no lookup returns). -/
def deref (jobs : List job_t) (i : Nat) : job_t :=
  jobs.getD i (clearjob ⟨0, 0, 0, ""⟩)

/-- The statement `currentJob->state = state` (tsh.c:421, 426). -/
def set_state (g : Shell) (i : Nat) (state : Int) : Shell :=
  { g with jobs := slot_update (fun j => { j with state := state }) i g.jobs }

/-- The second half of `do_bgfg` (tsh.c:420-429) on `currentJob = &jobs[i]`.  The second
component is the argument of the call of `waitfg` the function ends in, if it makes one. -/
def do_bgfg_apply (g : Shell) (cmd : String) (i : Nat) : Shell × Option Int :=
  if cmd = "bg" then
    let g1 := set_state g i BG
    let job := deref g1.jobs i
    let g2 := printf g1 ("[" ++ fmtd job.jid ++ "] (" ++ fmtd job.pid ++ ") " ++ job.cmdline)
    (kill g2 (-job.pid) SIGCONT, none)
  else if cmd = "fg" then
    let g1 := set_state g i FG
    let g2 := kill g1 (-(deref g1.jobs i).pid) SIGCONT
    (g2, some (deref g2.jobs i).pid)
  else (g, none)

/-- Function `do_bgfg` - Execute the builtin bg and fg commands (tsh.c:375-433). -/
def do_bgfg (g : Shell) (argv : List String) : Shell × Option Int :=
  match do_bgfg_lookup g argv with
  | (g1, none) => (g1, none)
  | (g1, some i) => do_bgfg_apply g1 (argv.headD "") i

/-- The parent's side of `eval` after `fork` returned `pid` for a command that is not a
builtin (tsh.c:211-229); `bg` is the result of `parseline`.  The second component is the
argument of the call of `waitfg`, made for a foreground job. -/
def eval_parent (g : Shell) (pid : Int) (bg : Int) (cmdline : String) : Shell × Option Int :=
  if bg = 0 then
    ((addjob g pid FG cmdline).2, some pid)
  else
    let g1 := (addjob g pid BG cmdline).2
    let jobid := pid2jid g1 pid
    (printf g1 ("[" ++ fmtd jobid ++ "] (" ++ fmtd pid ++ ") " ++ cmdline), none)

/-! ## Sequences of job-table calls -/

/-- A call of one of the two routines that change which jobs the table holds. -/
inductive table_op where
  | add (pid state : Int) (cmdline : String)
  | del (pid : Int)
  deriving DecidableEq, Repr

/-- The globals after one call of `addjob` or `deletejob`. -/
def apply_op (g : Shell) : table_op → Shell
  | .add pid state cmdline => (addjob g pid state cmdline).2
  | .del pid => (deletejob g pid).2

/-- The globals after a sequence of calls, first call first. -/
def apply_ops (g : Shell) (ops : List table_op) : Shell :=
  ops.foldl apply_op g

/-- The globals when `main` has run `initjobs(jobs)` (tsh.c:138): the zero-initialised
array of `MAXJOBS` slots cleared by `initjobs`, `nextjid = 1` (tsh.c:45), nothing printed
and no signal sent; `verbose` is 0 unless the shell was started with `-v`. -/
def init_shell (verbose : Int) : Shell :=
  { jobs := initjobs (List.replicate MAXJOBS ⟨0, 0, 0, ""⟩), nextjid := 1,
    verbose := verbose, out := "", sent := [] }

/-! ## The shell as a transition system

The main control flow reads a command, runs `eval` and comes back to the prompt; the
SIGCHLD handler may run between any two of its statements except where `eval` blocks the
signal (tsh.c:196-225, around `fork` and `addjob`).  `do_bgfg` runs with the signal
unblocked, so the handler may run between its lookup, its write of the state and the call
of `waitfg`. -/

/-- Where the main control flow stands. -/
inductive Ctl where
  /-- in the read/eval loop of `main`, no command under way (tsh.c:141-159) -/
  | prompt
  /-- in `do_bgfg` for command `cmd`, after the lookup, holding `currentJob = &jobs[i]` -/
  | found (cmd : String) (i : Nat)
  /-- in `do_bgfg` for `fg`, after `currentJob->state = FG` and `kill`, before
  `waitfg(currentJob->pid)` reads the pid -/
  | marked (i : Nat)
  /-- inside `waitfg(pid)` -/
  | waiting (pid : Int)
  deriving DecidableEq, Repr

/-- A state of the shell: its globals and the place of the main control flow. -/
structure Sys where
  g : Shell
  ctl : Ctl
  deriving DecidableEq, Repr

/-- What can happen next. -/
inductive Event where
  /-- the user typed `cmdline`, not a builtin, `parseline` returned `bg` and `fork`
  returned `pid` to the parent (tsh.c:193-229) -/
  | launch (pid bg : Int) (cmdline : String)
  /-- the user typed a `bg` or `fg` command with argument vector `argv`; `do_bgfg` runs up to
  its lookup (tsh.c:380-417) -/
  | bgfg (argv : List String)
  /-- `do_bgfg` writes the state and sends SIGCONT (tsh.c:420-427) -/
  | bgfg_write
  /-- `do_bgfg` calls `waitfg(currentJob->pid)` (tsh.c:428) -/
  | fg_wait
  /-- `waitfg` tests its loop condition (tsh.c:440) -/
  | poll
  /-- the kernel delivers SIGCHLD with the given queue of uncollected child state changes -/
  | sigchld (pending : List (Int × wstatus))
  deriving DecidableEq, Repr

/-- One step of the shell; `none` when the event cannot happen in this state, or when the
handler crashes on a `NULL` pointer. -/
def step (s : Sys) : Event → Option Sys
  | .launch pid bg cmdline =>
    match s.ctl with
    | .prompt =>
      if pid = 0 then none
      else
        match eval_parent s.g pid bg cmdline with
        | (g1, some p) => some ⟨g1, .waiting p⟩
        | (g1, none) => some ⟨g1, .prompt⟩
    | _ => none
  | .bgfg argv =>
    match s.ctl with
    | .prompt =>
      match do_bgfg_lookup s.g argv with
      | (g1, some i) => some ⟨g1, .found (argv.headD "") i⟩
      | (g1, none) => some ⟨g1, .prompt⟩
    | _ => none
  | .bgfg_write =>
    match s.ctl with
    | .found cmd i =>
      if cmd = "fg" then
        let g1 := set_state s.g i FG
        some ⟨kill g1 (-(deref g1.jobs i).pid) SIGCONT, .marked i⟩
      else some ⟨(do_bgfg_apply s.g cmd i).1, .prompt⟩
    | _ => none
  | .fg_wait =>
    match s.ctl with
    | .marked i => some ⟨s.g, .waiting (deref s.g.jobs i).pid⟩
    | _ => none
  | .poll =>
    match s.ctl with
    | .waiting pid => if waitfg s.g pid then some s else some ⟨s.g, .prompt⟩
    | _ => none
  | .sigchld pending =>
    match sigchld_handler s.g pending with
    | some (g1, _) => some ⟨g1, s.ctl⟩
    | none => none

/-- The state after a sequence of events, if each of them could happen. -/
def run (s : Sys) : List Event → Option Sys
  | [] => some s
  | e :: es =>
    match step s e with
    | some s1 => run s1 es
    | none => none

/-- The shell when `main` enters its read/eval loop. -/
def init_sys (verbose : Int) : Sys :=
  ⟨init_shell verbose, .prompt⟩

/-- The number of slots of the table whose state is `FG`. -/
def count_fg (jobs : List job_t) : Nat :=
  jobs.countP (fun j => j.state == FG)

/-- Any two slots holding the same process id are empty: the process ids of the live jobs
are pairwise distinct. -/
def live_pids_distinct (jobs : List job_t) : Prop :=
  jobs.Pairwise (fun a b => a.pid = b.pid → a.pid = 0)

instance (jobs : List job_t) : Decidable (live_pids_distinct jobs) := by
  unfold live_pids_distinct; infer_instance

/-- Every slot of `jobs2` in state `FG` is the same slot, with the same content, of
`jobs1`: a step from `jobs1` to `jobs2` made no slot foreground. -/
def no_new_fg (jobs1 jobs2 : List job_t) : Prop :=
  ∀ (k : Nat) (j : job_t), jobs2[k]? = some j → j.state = FG → jobs1[k]? = some j

/-- No slot of the table is in state `FG`. -/
def no_fg (jobs : List job_t) : Prop :=
  ∀ (k : Nat) (j : job_t), jobs[k]? = some j → j.state ≠ FG

/-- The invariant behind the foreground discipline.  At the prompt and while `do_bgfg`
still holds the job it looked up, no slot is `FG`; once `do_bgfg` has written `FG` through
its pointer, only the slot it points to can be `FG`; and inside `waitfg(pid)` one slot at
most is `FG`, and it holds `pid`. -/
def fg_inv (s : Sys) : Prop :=
  match s.ctl with
  | .prompt => no_fg s.g.jobs
  | .found _ _ => no_fg s.g.jobs
  | .marked i => ∀ (k : Nat) (j : job_t), s.g.jobs[k]? = some j → j.state = FG → k = i
  | .waiting pid =>
    ∃ i : Nat, ∀ (k : Nat) (j : job_t), s.g.jobs[k]? = some j → j.state = FG →
      k = i ∧ j.pid = pid


/-! ## The signal relay (tsh.c:493-519) -/

/-- Function `sigint_handler` (tsh.c:498-505): forward SIGINT to the foreground job. -/
def sigint_handler (g : Shell) (sig : Int) : Shell :=
  let pid := fgpid g.jobs
  if pid ≠ 0 then kill g (-pid) sig else g

/-- Function `sigtstp_handler` (tsh.c:512-519): forward SIGTSTP to the foreground job. -/
def sigtstp_handler (g : Shell) (sig : Int) : Shell :=
  let pid := fgpid g.jobs
  if pid ≠ 0 then kill g (-pid) sig else g

/-! ## Listing the jobs (tsh.c:649-674) -/

/-- The `switch` of `listjobs` (tsh.c:657-670) for slot `i`: the text printed for the
state of the job. -/
def state_text (i : Nat) (state : Int) : String :=
  if state = BG then "Running "
  else if state = FG then "Foreground "
  else if state = ST then "Stopped "
  else "listjobs: Internal error: job[" ++ fmtd i ++ "].state=" ++ fmtd state ++ " "

/-- The loop of `listjobs` from slot `i` on: what it prints for the slots `i`, `i+1`, ... -/
def listjobs_loop : Nat → List job_t → String
  | _, [] => ""
  | i, j :: rest =>
    (if j.pid ≠ 0 then
      "[" ++ fmtd j.jid ++ "] (" ++ fmtd j.pid ++ ") " ++ state_text i j.state ++ j.cmdline
    else "") ++ listjobs_loop (i + 1) rest

/-- Function `listjobs` - Print the job list (tsh.c:650-674). -/
def listjobs (g : Shell) : Shell :=
  printf g (listjobs_loop 0 g.jobs)

/-! ## Parsing the command line (tsh.c:234-289)

A C string is the list of its characters before the terminating NUL. -/

/-- The single quote character. -/
def QUOTE : Char := Char.ofNat 39

/-- The call `strchr(buf, c)`: the text before the first `c` in `buf` and the text after
it, or `none` (NULL) when `c` does not occur. -/
def strchr (c : Char) : List Char → Option (List Char × List Char)
  | [] => none
  | x :: xs => if x = c then some ([], xs) else (strchr c xs).map (fun r => (x :: r.1, r.2))

/-- The loop `while (*buf && (*buf == ' ')) buf++` (tsh.c:251, 268). -/
def skip_spaces : List Char → List Char
  | [] => []
  | x :: xs => if x = ' ' then skip_spaces xs else x :: xs

/-- The choice of the delimiter (tsh.c:256-262, 271-277): after a leading quote the
argument runs to the next quote, otherwise to the next space.  The result is the argument
and the text after its delimiter, `none` when `delim` is NULL. -/
def next_delim (buf : List Char) : Option (List Char × List Char) :=
  match buf with
  | [] => strchr ' ' []
  | c :: rest => if c = QUOTE then strchr QUOTE rest else strchr ' ' (c :: rest)

/-- The loop `while (delim)` of `parseline` (tsh.c:264-278): the arguments it stores in
`argv`.  Each turn consumes the delimiter, so `fuel` turns are enough for a buffer shorter
than `fuel`. -/
def parse_loop : Nat → List Char → List (List Char)
  | 0, _ => []
  | fuel + 1, buf =>
    match next_delim buf with
    | none => []
    | some (arg, rest) => arg :: parse_loop fuel (skip_spaces rest)

/-- The loop of `parseline` run on a buffer: spaces are skipped (tsh.c:251, 268) and the
loop `while (delim)` collects the arguments, with fuel for every character. -/
def parse_buf (buf : List Char) : List (List Char) :=
  parse_loop ((skip_spaces buf).length + 1) (skip_spaces buf)

/-- The arguments `parseline` builds (tsh.c:249-279) before it looks for the background
marker: the last character of the line (the newline) is replaced by a space
(`buf[strlen(buf)-1] = ' '`), leading spaces are skipped, and the loop collects the
arguments. -/
def parse_args (cmdline : List Char) : List (List Char) :=
  parse_buf (cmdline.dropLast ++ [' '])

/-- Function `parseline` - Parse the command line and build the argv array
(tsh.c:241-289).  The result is `argv` up to its NULL and the return value `bg`. -/
def parseline (cmdline : String) : List String × Int :=
  let argv := (parse_args cmdline.data).map String.mk
  match argv.getLast? with
  | none => ([], 1)
  | some last =>
    if last.data.head? = some '&' then (argv.dropLast, 1) else (argv, 0)

/-! ## Redirection (tsh.c:318-370) -/

/-- The state `do_redirect` leaves behind: the array `argv`, in which entries have been
overwritten with NULL (`none`), and the calls `dup2(fd, STDIN_FILENO)` (0) and
`dup2(fd, STDOUT_FILENO)` (1) made, with the file each `fd` was opened on. -/
structure redirect_result where
  argv : List (Option String)
  dups : List (Int × String)
  deriving DecidableEq, Repr

/-- Function `do_redirect` (tsh.c:322-370) on the entries of `argv` from index `i` on.
`can_open file` tells whether `open` and `dup2` succeed for `file`; when one of them fails,
and when the redirection token is the last argument (`open(NULL, ...)` fails), the child
prints `error` and exits: the result is `none`.  After `argv[i] = NULL` the loop goes on
with `argv[i+1]`, the file name. -/
def do_redirect (can_open : String → Bool) : List String → Option redirect_result
  | [] => some ⟨[], []⟩
  | a :: rest =>
    if a = "<" then
      match rest with
      | [] => none
      | file :: _ =>
        if can_open file then
          (do_redirect can_open rest).map (fun r => ⟨none :: r.argv, (0, file) :: r.dups⟩)
        else none
    else if a = ">" then
      match rest with
      | [] => none
      | file :: _ =>
        if can_open file then
          (do_redirect can_open rest).map (fun r => ⟨none :: r.argv, (1, file) :: r.dups⟩)
        else none
    else (do_redirect can_open rest).map (fun r => ⟨some a :: r.argv, r.dups⟩)

/-- The argument list `execve(argv[0], argv, environ)` passes on (tsh.c:205): the entries
of `argv` up to the first NULL. -/
def exec_args : List (Option String) → List String
  | [] => []
  | none :: _ => []
  | some a :: rest => a :: exec_args rest

/-! ## Dispatch (tsh.c:164-232, 291-315) -/

/-- Function `builtin_cmd` (tsh.c:295-315).  The result is `none` when the shell exits
(`quit`), otherwise the return value, the globals, and the argument of the call of
`waitfg` that `do_bgfg` ended in, if any. -/
def builtin_cmd (g : Shell) (argv : List String) : Option (Int × Shell × Option Int) :=
  if argv.headD "" = "quit" then none
  else if argv.headD "" = "jobs" then some (1, listjobs g, none)
  else if argv.headD "" = "bg" then some (1, (do_bgfg g argv).1, (do_bgfg g argv).2)
  else if argv.headD "" = "fg" then some (1, (do_bgfg g argv).1, (do_bgfg g argv).2)
  else some (0, g, none)

/-- What a call of `eval` did in the shell's own process. -/
structure eval_result where
  /-- the globals when `eval` returns, or when it enters `waitfg` -/
  g : Shell
  /-- whether `fork` was called -/
  forked : Bool
  /-- the argument of the call of `waitfg` made, if any -/
  wait : Option Int
  deriving DecidableEq, Repr

/-- Function `eval` - Evaluate the command line (tsh.c:175-232), in the shell's own
process; `pid` is what `fork` returns there if it is called (the child's pid, or -1).
The result is `none` when the shell exits (`quit`). -/
def eval (g : Shell) (cmdline : String) (pid : Int) : Option eval_result :=
  match parseline cmdline with
  | ([], _) => some ⟨g, false, none⟩
  | (a :: as, bg) =>
    match builtin_cmd g (a :: as) with
    | none => none
    | some (r, g1, w) =>
      if r = 0 then
        some ⟨(eval_parent g1 pid bg cmdline).1, true, (eval_parent g1 pid bg cmdline).2⟩
      else some ⟨g1, false, w⟩

/-! ## Reference definitions for the statements -/

/-- The largest value of a C `int`. -/
def INT_MAX : Int := 2147483647

/-- The maximal runs of non-space characters of a text, in order. -/
def runs : List Char → List (List Char)
  | [] => []
  | c :: cs =>
    if c = ' ' then runs cs
    else
      match cs with
      | [] => [[c]]
      | d :: _ =>
        if d = ' ' then [c] :: runs cs
        else
          match runs cs with
          | r :: rs => (c :: r) :: rs
          | [] => [[c]]

/-- The entry of one job in the listing: `[jid] (pid) <word> <cmdline>`. -/
def job_entry (word : String) (j : job_t) : String :=
  "[" ++ fmtd j.jid ++ "] (" ++ fmtd j.pid ++ ") " ++ word ++ " " ++ j.cmdline

/-- The status word the listing shows for a job state: `Running` for `BG`, `Foreground`
for `FG`, `Stopped` for `ST`. -/
def status_word (state : Int) : String :=
  if state = BG then "Running" else if state = FG then "Foreground" else "Stopped"

/-- The listing of a table: for each live slot (process id other than 0), in slot order,
the entry `[jid] (pid) <word> <cmdline>`; nothing for an empty slot. -/
def listing (jobs : List job_t) : String :=
  ((jobs.filter (fun j => j.pid != 0)).map (fun j => job_entry (status_word j.state) j)).foldr
    (fun entry text => entry ++ text) ""

/-- Whether an argument is a redirection token, `<` or `>`. -/
def is_redirect (a : String) : Bool :=
  a == "<" || a == ">"

/-- The text `listjobs` is to print for the slots of `jobs`, numbered from `n` on: for each
live slot, in slot order, `[jid] (pid) ` followed by the text for its state and by its
command line. -/
def listing_from (n : Nat) (jobs : List job_t) : String :=
  (((jobs.enumFrom n).filter (fun p => p.2.pid != 0)).map
    (fun p => "[" ++ fmtd p.2.jid ++ "] (" ++ fmtd p.2.pid ++ ") "
      ++ state_text p.1 p.2.state ++ p.2.cmdline)).foldr
    (fun entry text => entry ++ text) ""

/-! ## Job-table operations and slot well-formedness -/

/-- An operation that changes the job table: a call of `addjob`, a call of `deletejob`, a
run of the SIGCHLD handler (which removes the job of an exited or killed child and makes
the stop transition `getjobpid(jobs, pid)->state = ST`), or a call of `do_bgfg` (the state
changes of `bg` and `fg`). -/
inductive job_op where
  | add (pid state : Int) (cmdline : String)
  | del (pid : Int)
  | reap (pending : List (Int × wstatus))
  | bgfg (argv : List String)
  deriving DecidableEq, Repr

/-- The globals after one operation; `none` when the handler dereferences NULL. -/
def apply_job_op (g : Shell) : job_op → Option Shell
  | .add pid state cmdline => some (addjob g pid state cmdline).2
  | .del pid => some (deletejob g pid).2
  | .reap pending => (sigchld_handler g pending).map (fun r => r.1)
  | .bgfg argv => some (do_bgfg g argv).1

/-- The globals after a sequence of operations, first operation first. -/
def run_job_ops (g : Shell) : List job_op → Option Shell
  | [] => some g
  | op :: ops =>
    match apply_job_op g op with
    | some g1 => run_job_ops g1 ops
    | none => none

/-- The way the shell calls `addjob`: with state `FG` or `BG` (tsh.c:216, 224). -/
def job_op_ok : job_op → Prop
  | .add _ state _ => state = FG ∨ state = BG
  | _ => True

instance (op : job_op) : Decidable (job_op_ok op) := by
  cases op <;> unfold job_op_ok <;> infer_instance

/-- A well-formed slot: empty (pid 0, jid 0, state `UNDEF`, empty command line) or live
(pid at least 1, jid at least 1, state `FG`, `BG` or `ST`). -/
def slot_wf (j : job_t) : Prop :=
  (j.pid = 0 ∧ j.jid = 0 ∧ j.state = UNDEF ∧ j.cmdline = "") ∨
  (1 ≤ j.pid ∧ 1 ≤ j.jid ∧ (j.state = FG ∨ j.state = BG ∨ j.state = ST))

instance (j : job_t) : Decidable (slot_wf j) := by
  unfold slot_wf; infer_instance

/-- Whether `listjobs` runs the `default` branch of its `switch` (tsh.c:667-669) for some
slot: a slot with a process id other than 0 whose state is none of `BG`, `FG`, `ST`. -/
def listjobs_internal_error (jobs : List job_t) : Bool :=
  jobs.any (fun j => j.pid != 0 && !(j.state == BG || j.state == FG || j.state == ST))

/-- The invariant of the job table: every slot is well formed and the counter `nextjid`
is at least 1. -/
def shell_wf (g : Shell) : Prop :=
  (∀ j ∈ g.jobs, slot_wf j) ∧ 1 ≤ g.nextjid

/-! ## Lemmas on the slot scan and the slot write -/

theorem first_slot_none_iff (t : job_t → Bool) (l : List job_t) :
    first_slot t l = none ↔ ∀ x ∈ l, t x = false := by
  induction l with
  | nil => simp [first_slot]
  | cons a l ih =>
    by_cases h : t a = true
    · simp [first_slot, h]
    · simp [first_slot, h, ih]

theorem first_slot_split (t : job_t → Bool) (l : List job_t) (i : Nat)
    (h : first_slot t l = some i) :
    ∃ pre j post, l = pre ++ j :: post ∧ pre.length = i ∧ t j = true ∧
      ∀ x ∈ pre, t x = false := by
  induction l generalizing i with
  | nil => simp [first_slot] at h
  | cons a l ih =>
    by_cases ha : t a = true
    · simp [first_slot, ha] at h
      exact ⟨[], a, l, rfl, by simp [h], ha, by simp⟩
    · simp [first_slot, ha] at h
      obtain ⟨k, hk, rfl⟩ := h
      obtain ⟨pre, j, post, rfl, hlen, hj, hpre⟩ := ih k hk
      refine ⟨a :: pre, j, post, rfl, by simp [hlen], hj, ?_⟩
      intro x hx
      rcases List.mem_cons.1 hx with rfl | hx
      · simpa using ha
      · exact hpre x hx

theorem first_slot_append (t : job_t → Bool) (pre post : List job_t) (j : job_t)
    (hpre : ∀ x ∈ pre, t x = false) (hj : t j = true) :
    first_slot t (pre ++ j :: post) = some pre.length := by
  induction pre with
  | nil => simp [first_slot, hj]
  | cons a pre ih =>
    have ha : t a = false := hpre a (List.mem_cons_self _ _)
    have := ih (fun x hx => hpre x (List.mem_cons_of_mem _ hx))
    simp [first_slot, ha, this]

theorem slot_update_append (f : job_t → job_t) (pre post : List job_t) (j : job_t) :
    slot_update f pre.length (pre ++ j :: post) = pre ++ f j :: post := by
  induction pre with
  | nil => simp [slot_update]
  | cons a pre ih => simp [slot_update, ih]

theorem slot_update_length (f : job_t → job_t) (i : Nat) (l : List job_t) :
    (slot_update f i l).length = l.length := by
  induction l generalizing i with
  | nil => cases i <;> simp [slot_update]
  | cons a l ih => cases i <;> simp [slot_update, ih]

theorem slot_update_getElem? (f : job_t → job_t) (i k : Nat) (l : List job_t) :
    (slot_update f i l)[k]? = if k = i then l[k]?.map f else l[k]? := by
  induction l generalizing i k with
  | nil => cases i <;> simp [slot_update]
  | cons a l ih =>
    cases i with
    | zero => cases k <;> simp [slot_update]
    | succ i => cases k <;> simp [slot_update, ih]


theorem getElem?_append_slot (pre post : List job_t) (j : job_t) :
    (pre ++ j :: post)[pre.length]? = some j := by
  induction pre with
  | nil => simp
  | cons a pre ih => simpa using ih

/-! ## What `addjob` and `deletejob` do to the table -/

theorem addjob_of_lt (g : Shell) (pid state : Int) (cmdline : String) (h : pid < 1) :
    addjob g pid state cmdline = (0, g) := by
  simp [addjob, h]

theorem addjob_of_full (g : Shell) (pid state : Int) (cmdline : String) (h : 1 ≤ pid)
    (hfull : ∀ x ∈ g.jobs, x.pid ≠ 0) :
    addjob g pid state cmdline = (0, printf g "Tried to create too many jobs\n") := by
  have hn : first_slot (fun j => j.pid == 0) g.jobs = none :=
    (first_slot_none_iff _ _).2 (fun x hx => by simpa using hfull x hx)
  have hp : ¬ pid < 1 := by omega
  simp [addjob, hp, hn]

theorem addjob_of_slot (g : Shell) (pid state : Int) (cmdline : String) (h : 1 ≤ pid)
    (pre post : List job_t) (j : job_t) (hj : g.jobs = pre ++ j :: post) (hj0 : j.pid = 0)
    (hpre : ∀ x ∈ pre, x.pid ≠ 0) :
    (addjob g pid state cmdline).1 = 1 ∧
    (addjob g pid state cmdline).2.jobs = pre ++ ⟨pid, g.nextjid, state, cmdline⟩ :: post ∧
    (addjob g pid state cmdline).2.nextjid
      = (if g.nextjid + 1 > (MAXJOBS : Int) then 1 else g.nextjid + 1) := by
  have hs : first_slot (fun j => j.pid == 0) (pre ++ j :: post) = some pre.length :=
    first_slot_append _ pre post j (fun x hx => by simpa using hpre x hx) (by simpa using hj0)
  have hp : ¬ pid < 1 := by omega
  have hu := slot_update_append (fun _ => (⟨pid, g.nextjid, state, cmdline⟩ : job_t)) pre post j
  by_cases hv : g.verbose = 0
  · simp [addjob, hp, hs, hv, hj, hu]
  · simp [addjob, hp, hs, hv, hj, hu, printf]

theorem addjob_cases (g : Shell) (pid state : Int) (cmdline : String) :
    (addjob g pid state cmdline).1 = 0 ∨
    (1 ≤ pid ∧ ∃ pre j post, g.jobs = pre ++ j :: post ∧ j.pid = 0 ∧ ∀ x ∈ pre, x.pid ≠ 0) := by
  by_cases hp : pid < 1
  · left; rw [addjob_of_lt g pid state cmdline hp]
  · by_cases hn : first_slot (fun j => j.pid == 0) g.jobs = none
    · left
      rw [addjob_of_full g pid state cmdline (by omega)
        (fun x hx => by simpa using (first_slot_none_iff _ _).1 hn x hx)]
    · right
      obtain ⟨i, hi⟩ := Option.ne_none_iff_exists'.1 hn
      obtain ⟨pre, j, post, hj, -, hj0, hpre⟩ := first_slot_split _ _ _ hi
      exact ⟨by omega, pre, j, post, hj, by simpa using hj0,
        fun x hx => by simpa using hpre x hx⟩

theorem pid2jid_scan_append (pid : Int) (pre post : List job_t) (j : job_t)
    (hpre : ∀ x ∈ pre, x.pid ≠ pid) (hj : j.pid = pid) :
    pid2jid_scan pid (pre ++ j :: post) = j.jid := by
  induction pre with
  | nil => simp [pid2jid_scan, hj]
  | cons a pre ih =>
    have ha : a.pid ≠ pid := hpre a (List.mem_cons_self _ _)
    simp [pid2jid_scan, ha, ih (fun x hx => hpre x (List.mem_cons_of_mem _ hx))]

theorem pid2jid_scan_absent (pid : Int) (l : List job_t) (h : ∀ x ∈ l, x.pid ≠ pid) :
    pid2jid_scan pid l = 0 := by
  induction l with
  | nil => rfl
  | cons a l ih =>
    have ha : a.pid ≠ pid := h a (List.mem_cons_self _ _)
    simp [pid2jid_scan, ha, ih (fun x hx => h x (List.mem_cons_of_mem _ hx))]

/-- C3: for a table in which no slot holds `pid`, a `pid` of at least 1 and any state and
command line, when `addjob` succeeds `getjobpid` finds in the new table a job with exactly
the supplied process id, state and command line and with the job id `addjob` assigned, the
value of `nextjid` before the call, which is also what `pid2jid` returns. -/
theorem addjob_then_getjobpid (g : Shell) (pid state : Int) (cmdline : String)
    (hfresh : ∀ x ∈ g.jobs, x.pid ≠ pid) (hpid : 1 ≤ pid)
    (hok : (addjob g pid state cmdline).1 ≠ 0) :
    ∃ i, getjobpid (addjob g pid state cmdline).2.jobs pid = some i ∧
      (addjob g pid state cmdline).2.jobs[i]?
        = some { pid := pid, jid := g.nextjid, state := state, cmdline := cmdline } ∧
      pid2jid (addjob g pid state cmdline).2 pid = g.nextjid := by
  rcases addjob_cases g pid state cmdline with h0 | ⟨-, pre, j, post, hj, hj0, hpre⟩
  · exact absurd h0 hok
  · obtain ⟨-, hjobs, -⟩ := addjob_of_slot g pid state cmdline hpid pre post j hj hj0 hpre
    have hfp : ∀ x ∈ pre, x.pid ≠ pid := fun x hx => hfresh x (by simp [hj, hx])
    have hp : ¬ pid < 1 := by omega
    refine ⟨pre.length, ?_, ?_, ?_⟩
    · rw [hjobs]
      simp only [getjobpid, hp, if_false]
      exact first_slot_append _ pre post _ (fun x hx => by simpa using hfp x hx) (by simp)
    · rw [hjobs]; exact getElem?_append_slot pre post _
    · simp only [pid2jid, hp, if_false, hjobs]
      exact pid2jid_scan_append pid pre post _ hfp rfl

/-- Witness for C3 -/
theorem addjob_then_getjobpid_witness :
    ∃ i, getjobpid (addjob (init_shell 0) 4242 BG "sleep 5 &\n").2.jobs 4242 = some i ∧
      (addjob (init_shell 0) 4242 BG "sleep 5 &\n").2.jobs[i]?
        = some { pid := 4242, jid := 1, state := BG, cmdline := "sleep 5 &\n" } ∧
      pid2jid (addjob (init_shell 0) 4242 BG "sleep 5 &\n").2 4242 = 1 :=
  addjob_then_getjobpid (init_shell 0) 4242 BG "sleep 5 &\n" (by decide) (by decide) (by decide)


theorem deletejob_of_lt (g : Shell) (pid : Int) (h : pid < 1) : deletejob g pid = (0, g) := by
  simp [deletejob, h]

theorem deletejob_of_absent (g : Shell) (pid : Int) (h : ∀ x ∈ g.jobs, x.pid ≠ pid) :
    deletejob g pid = (0, g) := by
  have hn : first_slot (fun j => j.pid == pid) g.jobs = none :=
    (first_slot_none_iff _ _).2 (fun x hx => by simpa using h x hx)
  by_cases hp : pid < 1
  · exact deletejob_of_lt g pid hp
  · simp [deletejob, hp, hn]

theorem deletejob_of_slot (g : Shell) (pid : Int) (h : 1 ≤ pid)
    (pre post : List job_t) (j : job_t) (hj : g.jobs = pre ++ j :: post) (hjp : j.pid = pid)
    (hpre : ∀ x ∈ pre, x.pid ≠ pid) :
    deletejob g pid = (1, { g with jobs := pre ++ clearjob j :: post,
                                   nextjid := maxjid (pre ++ clearjob j :: post) + 1 }) := by
  have hs : first_slot (fun j => j.pid == pid) (pre ++ j :: post) = some pre.length :=
    first_slot_append _ pre post j (fun x hx => by simpa using hpre x hx) (by simpa using hjp)
  have hp : ¬ pid < 1 := by omega
  simp [deletejob, hp, hj, hs, slot_update_append]

theorem deletejob_cases (g : Shell) (pid : Int) :
    (deletejob g pid = (0, g) ∧ (pid < 1 ∨ ∀ x ∈ g.jobs, x.pid ≠ pid)) ∨
    (1 ≤ pid ∧ ∃ pre j post, g.jobs = pre ++ j :: post ∧ j.pid = pid ∧
      ∀ x ∈ pre, x.pid ≠ pid) := by
  by_cases hp : pid < 1
  · exact Or.inl ⟨deletejob_of_lt g pid hp, Or.inl hp⟩
  · by_cases hn : first_slot (fun j => j.pid == pid) g.jobs = none
    · have ha : ∀ x ∈ g.jobs, x.pid ≠ pid :=
        fun x hx => by simpa using (first_slot_none_iff _ _).1 hn x hx
      exact Or.inl ⟨deletejob_of_absent g pid ha, Or.inr ha⟩
    · right
      obtain ⟨i, hi⟩ := Option.ne_none_iff_exists'.1 hn
      obtain ⟨pre, j, post, hj, -, hjp, hpre⟩ := first_slot_split _ _ _ hi
      exact ⟨by omega, pre, j, post, hj, by simpa using hjp,
        fun x hx => by simpa using hpre x hx⟩

theorem getjobpid_absent (jobs : List job_t) (pid : Int) (h : ∀ x ∈ jobs, x.pid ≠ pid) :
    getjobpid jobs pid = none := by
  unfold getjobpid
  split
  · rfl
  · exact (first_slot_none_iff _ _).2 (fun x hx => by simpa using h x hx)

theorem pid2jid_absent (g : Shell) (pid : Int) (h : ∀ x ∈ g.jobs, x.pid ≠ pid) :
    pid2jid g pid = 0 := by
  unfold pid2jid
  split
  · rfl
  · exact pid2jid_scan_absent pid g.jobs h

/-- In a table with distinct live pids, the slots around the first holder of a pid of at
least 1 do not hold it. -/
theorem distinct_others (pre post : List job_t) (j : job_t) (pid : Int) (h : 1 ≤ pid)
    (hd : live_pids_distinct (pre ++ j :: post)) (hjp : j.pid = pid) :
    ∀ x ∈ post, x.pid ≠ pid := by
  intro x hx hxp
  unfold live_pids_distinct at hd
  have h1 := (List.pairwise_append.1 hd).2.1
  have h2 := (List.pairwise_cons.1 h1).1 x hx (by rw [hjp, hxp])
  omega

/-- C4: in a table whose live process ids are pairwise distinct, after `deletejob(jobs, pid)`
the lookup `getjobpid(jobs, pid)` returns `NULL` and `pid2jid(pid)` returns 0, and every
slot that did not hold `pid` is exactly as it was (the table keeping its size). -/
theorem deletejob_then_getjobpid (g : Shell) (pid : Int) (hd : live_pids_distinct g.jobs) :
    getjobpid (deletejob g pid).2.jobs pid = none ∧
    pid2jid (deletejob g pid).2 pid = 0 ∧
    (deletejob g pid).2.jobs.length = g.jobs.length ∧
    ∀ (k : Nat) (j : job_t), g.jobs[k]? = some j → j.pid ≠ pid →
      (deletejob g pid).2.jobs[k]? = some j := by
  rcases deletejob_cases g pid with ⟨h0, hlt | habs⟩ | ⟨hp, pre, j, post, hj, hjp, hpre⟩
  · rw [h0]
    refine ⟨by simp [getjobpid, hlt], by simp [pid2jid, hlt], rfl, fun k j hk _ => hk⟩
  · rw [h0]
    exact ⟨getjobpid_absent _ _ habs, pid2jid_absent _ _ habs, rfl, fun k j hk _ => hk⟩
  · rw [deletejob_of_slot g pid hp pre post j hj hjp hpre]
    have hpost := distinct_others pre post j pid hp (hj ▸ hd) hjp
    have hall : ∀ x ∈ pre ++ clearjob j :: post, x.pid ≠ pid := by
      intro x hx
      rcases List.mem_append.1 hx with hx | hx
      · exact hpre x hx
      · rcases List.mem_cons.1 hx with rfl | hx
        · simp only [clearjob]; omega
        · exact hpost x hx
    refine ⟨getjobpid_absent _ _ hall, pid2jid_absent _ _ hall, by simp [hj], ?_⟩
    intro k x hk hx
    have hu := slot_update_getElem? clearjob pre.length k (pre ++ j :: post)
    rw [slot_update_append] at hu
    simp only [hu]
    rw [hj] at hk
    by_cases hkl : k = pre.length
    · subst hkl
      rw [getElem?_append_slot] at hk
      exact absurd (by rw [← Option.some.inj hk]; exact hjp) hx
    · simp [hkl, hk]

/-- Witness for C4 -/
theorem deletejob_then_getjobpid_witness :
    getjobpid (deletejob (apply_ops (init_shell 0)
        [.add 7 BG "a &\n", .add 8 FG "b\n"]) 7).2.jobs 7 = none ∧
    pid2jid (deletejob (apply_ops (init_shell 0)
        [.add 7 BG "a &\n", .add 8 FG "b\n"]) 7).2 7 = 0 ∧
    (deletejob (apply_ops (init_shell 0) [.add 7 BG "a &\n", .add 8 FG "b\n"]) 7).2.jobs.length
      = (apply_ops (init_shell 0) [.add 7 BG "a &\n", .add 8 FG "b\n"]).jobs.length ∧
    ∀ (k : Nat) (j : job_t),
      (apply_ops (init_shell 0) [.add 7 BG "a &\n", .add 8 FG "b\n"]).jobs[k]? = some j →
      j.pid ≠ 7 →
      (deletejob (apply_ops (init_shell 0) [.add 7 BG "a &\n", .add 8 FG "b\n"]) 7).2.jobs[k]?
        = some j :=
  deletejob_then_getjobpid _ 7 (by decide)

/-- C5: `addjob` returns 0 exactly when `pid < 1` or no slot of the table is empty (every
slot holds a process id other than 0); it returns 0 or 1, and whenever it returns 0 every
slot of the table and the counter `nextjid` are as before the call. -/
theorem addjob_fails_iff (g : Shell) (pid state : Int) (cmdline : String) :
    ((addjob g pid state cmdline).1 = 0 ↔ (pid < 1 ∨ ∀ x ∈ g.jobs, x.pid ≠ 0)) ∧
    ((addjob g pid state cmdline).1 = 0 ∨ (addjob g pid state cmdline).1 = 1) ∧
    ((addjob g pid state cmdline).1 = 0 →
      (addjob g pid state cmdline).2.jobs = g.jobs ∧
      (addjob g pid state cmdline).2.nextjid = g.nextjid) := by
  by_cases hp : pid < 1
  · rw [addjob_of_lt g pid state cmdline hp]
    simp [hp]
  · by_cases hfull : ∀ x ∈ g.jobs, x.pid ≠ 0
    · rw [addjob_of_full g pid state cmdline (by omega) hfull]
      exact ⟨⟨fun _ => Or.inr hfull, fun _ => rfl⟩, Or.inl rfl, fun _ => ⟨rfl, rfl⟩⟩
    · rcases addjob_cases g pid state cmdline with h0 | ⟨h1, pre, j, post, hj, hj0, hpre⟩
      · exfalso
        have hn : first_slot (fun j => j.pid == 0) g.jobs ≠ none := by
          intro hn
          exact hfull (fun x hx => by simpa using (first_slot_none_iff _ _).1 hn x hx)
        obtain ⟨i, hi⟩ := Option.ne_none_iff_exists'.1 hn
        obtain ⟨pre, j, post, hj, -, hj0, hpre⟩ := first_slot_split _ _ _ hi
        have := (addjob_of_slot g pid state cmdline (by omega) pre post j hj
          (by simpa using hj0) (fun x hx => by simpa using hpre x hx)).1
        omega
      · have h := (addjob_of_slot g pid state cmdline h1 pre post j hj hj0 hpre).1
        refine ⟨⟨fun h0 => by omega, fun hc => ?_⟩, Or.inr h, fun h0 => by omega⟩
        rcases hc with hc | hc
        · exact absurd hc hp
        · exact absurd hc hfull


theorem maxjid_foldl_clear (l : List job_t) (acc : Int) (h : ∀ x ∈ l, x = clearjob x)
    (hacc : 0 ≤ acc) :
    l.foldl (fun max j => if j.jid > max then j.jid else max) acc = acc := by
  induction l generalizing acc with
  | nil => rfl
  | cons a l ih =>
    have ha : a.jid = 0 := by
      have := h a (List.mem_cons_self _ _)
      rw [this]; rfl
    have hn : ¬ (a.jid > acc) := by omega
    simp only [List.foldl_cons, hn, if_false]
    exact ih acc (fun x hx => h x (List.mem_cons_of_mem _ hx)) hacc

theorem maxjid_of_clear (l : List job_t) (h : ∀ x ∈ l, x = clearjob x) : maxjid l = 0 :=
  maxjid_foldl_clear l 0 h (le_refl 0)

theorem deletejob_ok_nextjid (g : Shell) (pid : Int) (h : (deletejob g pid).1 ≠ 0) :
    (deletejob g pid).2.nextjid = maxjid (deletejob g pid).2.jobs + 1 ∧
    ∃ x ∈ (deletejob g pid).2.jobs, x.pid = 0 := by
  rcases deletejob_cases g pid with ⟨h0, -⟩ | ⟨hp, pre, j, post, hj, hjp, hpre⟩
  · rw [h0] at h; exact absurd rfl h
  · rw [deletejob_of_slot g pid hp pre post j hj hjp hpre]
    exact ⟨rfl, clearjob j, by simp, rfl⟩

/-- C6 (counterexample): jobs 1, 2, 3 are added and job 2 is removed, so job 3 holds the
current maximum id 3; removing it succeeds, and the next successful `addjob` assigns id 2,
not the id 3 that was just removed. -/
theorem deletejob_max_not_reissued :
    maxjid (apply_ops (init_shell 0) [.add 101 BG "a &\n", .add 102 BG "b &\n",
      .add 103 BG "c &\n", .del 102]).jobs = 3 ∧
    pid2jid (apply_ops (init_shell 0) [.add 101 BG "a &\n", .add 102 BG "b &\n",
      .add 103 BG "c &\n", .del 102]) 103 = 3 ∧
    (deletejob (apply_ops (init_shell 0) [.add 101 BG "a &\n", .add 102 BG "b &\n",
      .add 103 BG "c &\n", .del 102]) 103).1 = 1 ∧
    (addjob (deletejob (apply_ops (init_shell 0) [.add 101 BG "a &\n", .add 102 BG "b &\n",
      .add 103 BG "c &\n", .del 102]) 103).2 104 BG "d &\n").1 = 1 ∧
    pid2jid (addjob (deletejob (apply_ops (init_shell 0) [.add 101 BG "a &\n",
      .add 102 BG "b &\n", .add 103 BG "c &\n", .del 102]) 103).2 104 BG "d &\n").2 104 = 2 := by
  decide

/-- C6 (amended): after every successful `deletejob` the counter `nextjid` equals
`maxjid` of the remaining table plus 1, and the next successful `addjob` stores its job,
with exactly that id, in the first empty slot; so an id `m` is issued again when the
largest remaining id is `m - 1`, and when the remaining table is empty the id issued is 1. -/
theorem deletejob_then_addjob_jid (g : Shell) (pid : Int) (hdel : (deletejob g pid).1 ≠ 0) :
    (deletejob g pid).2.nextjid = maxjid (deletejob g pid).2.jobs + 1 ∧
    (∀ (pid2 state : Int) (cmdline : String),
      (addjob (deletejob g pid).2 pid2 state cmdline).1 ≠ 0 →
      ∃ pre j post, (deletejob g pid).2.jobs = pre ++ j :: post ∧ j.pid = 0 ∧
        (∀ x ∈ pre, x.pid ≠ 0) ∧
        (addjob (deletejob g pid).2 pid2 state cmdline).2.jobs
          = pre ++ { pid := pid2, jid := maxjid (deletejob g pid).2.jobs + 1, state := state,
                     cmdline := cmdline } :: post ∧
        (∀ m : Int, maxjid (deletejob g pid).2.jobs = m - 1 →
          (addjob (deletejob g pid).2 pid2 state cmdline).2.jobs
            = pre ++ { pid := pid2, jid := m, state := state, cmdline := cmdline } :: post) ∧
        ((∀ x ∈ (deletejob g pid).2.jobs, x = clearjob x) →
          (addjob (deletejob g pid).2 pid2 state cmdline).2.jobs
            = pre ++ { pid := pid2, jid := 1, state := state, cmdline := cmdline } :: post)) := by
  obtain ⟨hnext, -⟩ := deletejob_ok_nextjid g pid hdel
  refine ⟨hnext, ?_⟩
  intro pid2 state cmdline hadd
  rcases addjob_cases (deletejob g pid).2 pid2 state cmdline with
    h0 | ⟨h1, pre, j, post, hj, hj0, hpre⟩
  · exact absurd h0 hadd
  · obtain ⟨-, hjobs, -⟩ := addjob_of_slot _ pid2 state cmdline h1 pre post j hj hj0 hpre
    rw [hnext] at hjobs
    refine ⟨pre, j, post, hj, hj0, hpre, hjobs, ?_, ?_⟩
    · intro m hm
      rw [hjobs, hm]; simp
    · intro hclear
      rw [hjobs, maxjid_of_clear _ hclear]; simp

/-- Witness for C6 (amended) -/
theorem deletejob_then_addjob_jid_witness :
    (deletejob (apply_ops (init_shell 0) [.add 101 BG "a &\n"]) 101).1 ≠ 0 ∧
    (deletejob (apply_ops (init_shell 0) [.add 101 BG "a &\n"]) 101).2.nextjid
      = maxjid (deletejob (apply_ops (init_shell 0) [.add 101 BG "a &\n"]) 101).2.jobs + 1 :=
  ⟨by decide,
    (deletejob_then_addjob_jid (apply_ops (init_shell 0) [.add 101 BG "a &\n"]) 101
      (by decide)).1⟩


/-- C2 (the code at the failing input): fifteen background jobs with pids 1 to 15 are
added, the job with pid 2 is removed, and two more jobs with pids 16 and 17 are added.
Every call succeeds on distinct live pids, the table is full, and the jobs with pids 1 and
17, in slots 0 and 15, both hold job id 1. -/
theorem addjob_reissues_live_jid :
    (apply_ops (init_shell 0)
      ([.add 1 BG "a\n", .add 2 BG "a\n", .add 3 BG "a\n", .add 4 BG "a\n", .add 5 BG "a\n",
        .add 6 BG "a\n", .add 7 BG "a\n", .add 8 BG "a\n", .add 9 BG "a\n", .add 10 BG "a\n",
        .add 11 BG "a\n", .add 12 BG "a\n", .add 13 BG "a\n", .add 14 BG "a\n",
        .add 15 BG "a\n", .del 2, .add 16 BG "a\n", .add 17 BG "a\n"])).jobs.map
      (fun j => (j.pid, j.jid))
    = [(1, 1), (16, 16), (3, 3), (4, 4), (5, 5), (6, 6), (7, 7), (8, 8), (9, 9), (10, 10),
       (11, 11), (12, 12), (13, 13), (14, 14), (15, 15), (17, 1)] := by
  decide

/-- C7 (the code at the failing input): two tracked children, pids 100 and 101, have both
exited when SIGCHLD is delivered.  One run of the handler collects only the first: the
second is still in the kernel's queue when the handler returns, and its job is still in
the table. -/
theorem sigchld_handler_reaps_one :
    (sigchld_handler (apply_ops (init_shell 0) [.add 100 BG "a &\n", .add 101 BG "b &\n"])
      [(100, .exited 0), (101, .exited 0)]).map
      (fun r => (r.2, getjobpid r.1.jobs 100, getjobpid r.1.jobs 101))
    = some ([(101, .exited 0)], none, some 1) := by
  decide

/-- C8 (the code at the failing input): a tracked child, job 1 with pid 100, killed by
signal 9 is reported as `terminated by signal 2`, and one stopped by signal 19 is reported
as `stopped by signal 20`. -/
theorem sigchld_handler_prints_fixed_signal :
    (sigchld_handler (apply_ops (init_shell 0) [.add 100 BG "a &\n"])
      [(100, .signaled 9)]).map (fun r => r.1.out)
      = some "Job [1] (100) terminated by signal 2\n" ∧
    (sigchld_handler (apply_ops (init_shell 0) [.add 100 BG "a &\n"])
      [(100, .stopped 19)]).map (fun r => r.1.out)
      = some "Job [1] (100) stopped by signal 20\n" := by
  decide


theorem first_holder (jobs : List job_t) (p : Int) (hlive : ∃ x ∈ jobs, x.pid = p) :
    ∃ pre j post, jobs = pre ++ j :: post ∧ j.pid = p ∧ ∀ x ∈ pre, x.pid ≠ p := by
  have hn : first_slot (fun j => j.pid == p) jobs ≠ none := by
    intro hn
    obtain ⟨x, hx, hxp⟩ := hlive
    have := (first_slot_none_iff _ _).1 hn x hx
    simp [hxp] at this
  obtain ⟨i, hi⟩ := Option.ne_none_iff_exists'.1 hn
  obtain ⟨pre, j, post, hj, -, hjp, hpre⟩ := first_slot_split _ _ _ hi
  exact ⟨pre, j, post, hj, by simpa using hjp, fun x hx => by simpa using hpre x hx⟩

theorem getjobpid_of_slot (pre post : List job_t) (j : job_t) (p : Int) (hp : 0 < p)
    (hjp : j.pid = p) (hpre : ∀ x ∈ pre, x.pid ≠ p) :
    getjobpid (pre ++ j :: post) p = some pre.length := by
  have h1 : ¬ p < 1 := by omega
  simp only [getjobpid, h1, if_false]
  exact first_slot_append _ pre post j (fun x hx => by simpa using hpre x hx) (by simpa using hjp)

theorem getElem?_append_other (pre post : List job_t) (j j2 : job_t) (k : Nat)
    (hk : k ≠ pre.length) : (pre ++ j2 :: post)[k]? = (pre ++ j :: post)[k]? := by
  have h1 := slot_update_getElem? (fun _ => j2) pre.length k (pre ++ j :: post)
  rw [slot_update_append] at h1
  simpa [hk] using h1

/-- C9: when the table holds a job with process id `p` and the handler collects `p` as
stopped, the handler returns having set the state of that job (the one `getjobpid` finds) to
`ST`, its pid, jid and command line being as before; every other slot, the size of the table
and `nextjid` are unchanged, and `getjobpid` still finds the job in the same slot. -/
theorem sigchld_handler_stopped (g : Shell) (p sig : Int) (rest : List (Int × wstatus))
    (hp : 0 < p) (hlive : ∃ x ∈ g.jobs, x.pid = p) :
    ∃ g1 i j, sigchld_handler g ((p, .stopped sig) :: rest) = some (g1, rest) ∧
      getjobpid g.jobs p = some i ∧ g.jobs[i]? = some j ∧ j.pid = p ∧
      g1.jobs[i]? = some { pid := j.pid, jid := j.jid, state := ST, cmdline := j.cmdline } ∧
      (∀ k : Nat, k ≠ i → g1.jobs[k]? = g.jobs[k]?) ∧
      g1.jobs.length = g.jobs.length ∧
      g1.nextjid = g.nextjid ∧
      getjobpid g1.jobs p = some i := by
  obtain ⟨pre, j, post, hj, hjp, hpre⟩ := first_holder g.jobs p hlive
  have hget : getjobpid g.jobs p = some pre.length := by
    rw [hj]; exact getjobpid_of_slot pre post j p hp hjp hpre
  refine ⟨printf { g with jobs := pre ++ { j with state := ST } :: post }
      ("Job [" ++ fmtd (pid2jid { g with jobs := pre ++ { j with state := ST } :: post } p)
        ++ "] (" ++ fmtd p ++ ") stopped by signal 20\n"),
    pre.length, j, ?_, hget, ?_, hjp, ?_, ?_, ?_, rfl, ?_⟩
  · simp only [sigchld_handler, waitpid, hp, if_true, WIFSIGNALED, WIFSTOPPED, hget]
    rw [hj, slot_update_append]
    simp
  · rw [hj]; exact getElem?_append_slot pre post j
  · exact getElem?_append_slot pre post _
  · intro k hk
    rw [hj]
    exact getElem?_append_other pre post j _ k hk
  · simp [printf, hj]
  · exact getjobpid_of_slot pre post _ p hp hjp hpre

/-- Witness for C9 -/
theorem sigchld_handler_stopped_witness :
    ∃ g1 i j, sigchld_handler (apply_ops (init_shell 0) [.add 100 FG "sleep 5\n"])
        ((100, .stopped 20) :: []) = some (g1, []) ∧
      getjobpid (apply_ops (init_shell 0) [.add 100 FG "sleep 5\n"]).jobs 100 = some i ∧
      (apply_ops (init_shell 0) [.add 100 FG "sleep 5\n"]).jobs[i]? = some j ∧ j.pid = 100 ∧
      g1.jobs[i]? = some { pid := j.pid, jid := j.jid, state := ST, cmdline := j.cmdline } ∧
      (∀ k : Nat, k ≠ i →
        g1.jobs[k]? = (apply_ops (init_shell 0) [.add 100 FG "sleep 5\n"]).jobs[k]?) ∧
      g1.jobs.length = (apply_ops (init_shell 0) [.add 100 FG "sleep 5\n"]).jobs.length ∧
      g1.nextjid = (apply_ops (init_shell 0) [.add 100 FG "sleep 5\n"]).nextjid ∧
      getjobpid g1.jobs 100 = some i :=
  sigchld_handler_stopped (apply_ops (init_shell 0) [.add 100 FG "sleep 5\n"]) 100 20 []
    (by decide) ⟨⟨100, 1, FG, "sleep 5\n"⟩, by decide, rfl⟩

/-- C10 (counterexample): the table holds two live jobs with process id 5; the handler
collects 5 as exited normally and clears the first of them, and `getjobpid(jobs, 5)` then
still finds a job, in slot 1. -/
theorem sigchld_handler_exit_still_found :
    (∃ x ∈ (apply_ops (init_shell 0) [.add 5 BG "a &\n", .add 5 BG "b &\n"]).jobs, x.pid = 5) ∧
    (sigchld_handler (apply_ops (init_shell 0) [.add 5 BG "a &\n", .add 5 BG "b &\n"])
      [(5, .exited 0)]).map (fun r => getjobpid r.1.jobs 5) = some (some 1) := by
  refine ⟨⟨⟨5, 1, BG, "a &\n"⟩, by decide, rfl⟩, by decide⟩

/-- C10 (amended): when the live process ids of the table are pairwise distinct, the table
holds a job with process id `p` and the handler collects `p` as exited normally or as killed
by a signal, the handler returns having cleared the slot of that job, so that `getjobpid`
no longer finds `p`; every other slot and the size of the table are unchanged, and for a
normal exit nothing is printed. -/
theorem sigchld_handler_terminated (g : Shell) (p : Int) (stat : wstatus)
    (rest : List (Int × wstatus)) (hp : 0 < p) (hstat : WIFSTOPPED stat = false)
    (hd : live_pids_distinct g.jobs) (hlive : ∃ x ∈ g.jobs, x.pid = p) :
    ∃ g1 i, sigchld_handler g ((p, stat) :: rest) = some (g1, rest) ∧
      getjobpid g.jobs p = some i ∧
      g1.jobs[i]? = some { pid := 0, jid := 0, state := UNDEF, cmdline := "" } ∧
      (∀ k : Nat, k ≠ i → g1.jobs[k]? = g.jobs[k]?) ∧
      g1.jobs.length = g.jobs.length ∧
      getjobpid g1.jobs p = none ∧
      (WIFSIGNALED stat = false → g1.out = g.out) := by
  obtain ⟨pre, j, post, hj, hjp, hpre⟩ := first_holder g.jobs p hlive
  have hget : getjobpid g.jobs p = some pre.length := by
    rw [hj]; exact getjobpid_of_slot pre post j p hp hjp hpre
  have hpost := distinct_others pre post j p (by omega) (hj ▸ hd) hjp
  have hall : ∀ x ∈ pre ++ clearjob j :: post, x.pid ≠ p := by
    intro x hx
    rcases List.mem_append.1 hx with hx | hx
    · exact hpre x hx
    · rcases List.mem_cons.1 hx with rfl | hx
      · simp only [clearjob]; omega
      · exact hpost x hx
  have key : ∀ g0 : Shell, g0.jobs = g.jobs →
      (deletejob g0 p).2.jobs = pre ++ clearjob j :: post ∧ (deletejob g0 p).2.out = g0.out := by
    intro g0 h0
    rw [deletejob_of_slot g0 p (by omega) pre post j (h0.trans hj) hjp hpre]
    exact ⟨rfl, rfl⟩
  have hrest : ∀ g1 : Shell, g1.jobs = pre ++ clearjob j :: post →
      g1.jobs[pre.length]? = some { pid := 0, jid := 0, state := UNDEF, cmdline := "" } ∧
      (∀ k : Nat, k ≠ pre.length → g1.jobs[k]? = g.jobs[k]?) ∧
      g1.jobs.length = g.jobs.length ∧ getjobpid g1.jobs p = none := by
    intro g1 h1
    rw [h1, hj]
    exact ⟨getElem?_append_slot pre post _,
      fun k hk => getElem?_append_other pre post j _ k hk, by simp,
      getjobpid_absent _ _ hall⟩
  by_cases hs : WIFSIGNALED stat = true
  · obtain ⟨hjobs, -⟩ := key (printf g ("Job [" ++ fmtd (pid2jid g p) ++ "] (" ++ fmtd p
      ++ ") terminated by signal 2\n")) rfl
    obtain ⟨a, b, c, d⟩ := hrest _ hjobs
    exact ⟨_, pre.length, by simp [sigchld_handler, waitpid, hp, hs], hget, a, b, c, d,
      fun h => by simp [hs] at h⟩
  · obtain ⟨hjobs, hout⟩ := key g rfl
    obtain ⟨a, b, c, d⟩ := hrest _ hjobs
    exact ⟨_, pre.length, by simp [sigchld_handler, waitpid, hp, hs, hstat], hget, a, b, c, d,
      fun _ => hout⟩

/-- Witness for C10 (amended) -/
theorem sigchld_handler_terminated_witness :
    ∃ g1 i, sigchld_handler (apply_ops (init_shell 0) [.add 100 FG "sleep 5\n"])
        ((100, .exited 0) :: []) = some (g1, []) ∧
      getjobpid (apply_ops (init_shell 0) [.add 100 FG "sleep 5\n"]).jobs 100 = some i ∧
      g1.jobs[i]? = some { pid := 0, jid := 0, state := UNDEF, cmdline := "" } ∧
      (∀ k : Nat, k ≠ i →
        g1.jobs[k]? = (apply_ops (init_shell 0) [.add 100 FG "sleep 5\n"]).jobs[k]?) ∧
      g1.jobs.length = (apply_ops (init_shell 0) [.add 100 FG "sleep 5\n"]).jobs.length ∧
      getjobpid g1.jobs 100 = none ∧
      (WIFSIGNALED (.exited 0) = false →
        g1.out = (apply_ops (init_shell 0) [.add 100 FG "sleep 5\n"]).out) :=
  sigchld_handler_terminated (apply_ops (init_shell 0) [.add 100 FG "sleep 5\n"]) 100
    (.exited 0) [] (by decide) rfl (by decide) ⟨⟨100, 1, FG, "sleep 5\n"⟩, by decide, rfl⟩


/-! ## The foreground invariant -/

theorem no_new_fg_refl (jobs : List job_t) : no_new_fg jobs jobs :=
  fun _ _ h _ => h

theorem no_new_fg_slot_update (f : job_t → job_t) (i : Nat) (jobs : List job_t)
    (hf : ∀ j, (f j).state ≠ FG) : no_new_fg jobs (slot_update f i jobs) := by
  intro k j hk hfg
  rw [slot_update_getElem?] at hk
  by_cases hki : k = i
  · simp only [hki, if_true] at hk
    obtain ⟨a, -, ha⟩ := Option.map_eq_some'.1 hk
    exact absurd (ha ▸ hfg) (hf a)
  · simpa [hki] using hk

theorem deletejob_jobs (g : Shell) (pid : Int) :
    (deletejob g pid).2.jobs = g.jobs ∨
    ∃ i, (deletejob g pid).2.jobs = slot_update clearjob i g.jobs := by
  unfold deletejob
  split
  · exact Or.inl rfl
  · split
    · exact Or.inr ⟨_, rfl⟩
    · exact Or.inl rfl

theorem addjob_jobs (g : Shell) (pid state : Int) (cmdline : String) :
    (addjob g pid state cmdline).2.jobs = g.jobs ∨
    ∃ i, (addjob g pid state cmdline).2.jobs
      = slot_update (fun _ => ⟨pid, g.nextjid, state, cmdline⟩) i g.jobs := by
  unfold addjob
  split
  · exact Or.inl rfl
  · split
    · rename_i i _
      refine Or.inr ⟨i, ?_⟩
      dsimp only
      split <;> rfl
    · exact Or.inl rfl

theorem deletejob_no_new_fg (g : Shell) (pid : Int) :
    no_new_fg g.jobs (deletejob g pid).2.jobs := by
  rcases deletejob_jobs g pid with h | ⟨i, h⟩
  · rw [h]; exact no_new_fg_refl _
  · rw [h]; exact no_new_fg_slot_update _ _ _ (fun j => by simp [clearjob, UNDEF, FG])

theorem sigchld_handler_no_new_fg (g g1 : Shell) (pending rest : List (Int × wstatus))
    (h : sigchld_handler g pending = some (g1, rest)) : no_new_fg g.jobs g1.jobs := by
  unfold sigchld_handler at h
  split at h
  rename_i pid stat rest0 _
  split at h
  · split at h
    · obtain ⟨rfl, -⟩ := Prod.mk.inj (Option.some.inj h)
      exact deletejob_no_new_fg (printf g _) pid
    · split at h
      · split at h
        · exact absurd h (by simp)
        · obtain ⟨rfl, -⟩ := Prod.mk.inj (Option.some.inj h)
          exact no_new_fg_slot_update _ _ _ (fun j => by simp [ST, FG])
      · obtain ⟨rfl, -⟩ := Prod.mk.inj (Option.some.inj h)
        exact deletejob_no_new_fg g pid
  · obtain ⟨rfl, -⟩ := Prod.mk.inj (Option.some.inj h)
    exact no_new_fg_refl _


theorem fg_inv_of_no_new_fg (g g1 : Shell) (c : Ctl) (h : no_new_fg g.jobs g1.jobs)
    (hinv : fg_inv ⟨g, c⟩) : fg_inv ⟨g1, c⟩ := by
  cases c with
  | prompt => exact fun k j hk hfg => hinv k j (h k j hk hfg) hfg
  | found cmd i => exact fun k j hk hfg => hinv k j (h k j hk hfg) hfg
  | marked i => exact fun k j hk hfg => hinv k j (h k j hk hfg) hfg
  | waiting pid =>
    obtain ⟨i, hi⟩ := hinv
    exact ⟨i, fun k j hk hfg => hi k j (h k j hk hfg) hfg⟩

theorem no_fg_slot_update (f : job_t → job_t) (i : Nat) (jobs : List job_t)
    (hf : ∀ j, (f j).state ≠ FG) (h : no_fg jobs) : no_fg (slot_update f i jobs) :=
  fun k j hk hfg => h k j (no_new_fg_slot_update f i jobs hf k j hk hfg) hfg

theorem slot_update_only_fg (f : job_t → job_t) (i : Nat) (jobs : List job_t)
    (h : no_fg jobs) (k : Nat) (j : job_t) (hk : (slot_update f i jobs)[k]? = some j)
    (hfg : j.state = FG) : k = i ∧ ∃ a, jobs[i]? = some a ∧ j = f a := by
  rw [slot_update_getElem?] at hk
  by_cases hki : k = i
  · subst hki
    simp only [if_true] at hk
    obtain ⟨a, ha, hfa⟩ := Option.map_eq_some'.1 hk
    exact ⟨rfl, a, ha, hfa.symm⟩
  · simp only [hki, if_false] at hk
    exact absurd hfg (h k j hk)

theorem fgpid_of_fg (jobs : List job_t) (k : Nat) (j : job_t) (hk : jobs[k]? = some j)
    (hfg : j.state = FG) :
    ∃ (k1 : Nat) (j1 : job_t), jobs[k1]? = some j1 ∧ j1.state = FG ∧ fgpid jobs = j1.pid := by
  induction jobs generalizing k with
  | nil => simp at hk
  | cons a l ih =>
    by_cases ha : a.state = FG
    · exact ⟨0, a, by simp, ha, by simp [fgpid, ha]⟩
    · cases k with
      | zero =>
        simp at hk
        exact absurd (hk ▸ hfg) ha
      | succ k =>
        obtain ⟨k1, j1, h1, h2, h3⟩ := ih k (by simpa using hk)
        exact ⟨k1 + 1, j1, by simpa using h1, h2, by simp [fgpid, ha, h3]⟩

theorem do_bgfg_lookup_jobs (g : Shell) (argv : List String) :
    (do_bgfg_lookup g argv).1.jobs = g.jobs := by
  unfold do_bgfg_lookup
  split
  · rfl
  · rfl
  · dsimp only
    split
    · rfl
    · split
      · split <;> rfl
      · split <;> rfl

theorem count_fg_le_one (jobs : List job_t) (i : Nat)
    (h : ∀ (k : Nat) (j : job_t), jobs[k]? = some j → j.state = FG → k = i) :
    count_fg jobs ≤ 1 := by
  induction jobs generalizing i with
  | nil => simp [count_fg]
  | cons a l ih =>
    by_cases ha : a.state = FG
    · have hi : 0 = i := h 0 a (by simp) ha
      have hz : count_fg l = 0 := by
        unfold count_fg
        rw [List.countP_eq_zero]
        intro x hx
        obtain ⟨k, hk⟩ := List.mem_iff_getElem?.1 hx
        have hfg : ¬ x.state = FG := by
          intro hfg
          have := h (k + 1) x (by simpa using hk) hfg
          omega
        simpa using hfg
      have : count_fg (a :: l) = count_fg l + 1 := by
        unfold count_fg
        rw [List.countP_cons_of_pos]
        simpa using ha
      omega
    · have : count_fg (a :: l) = count_fg l := by
        unfold count_fg
        rw [List.countP_cons_of_neg]
        simpa using ha
      rw [this]
      refine ih (i - 1) (fun k j hk hfg => ?_)
      have := h (k + 1) j (by simpa using hk) hfg
      omega

theorem count_fg_of_inv (s : Sys) (h : fg_inv s) : count_fg s.g.jobs ≤ 1 := by
  obtain ⟨g, c⟩ := s
  cases c with
  | prompt => exact count_fg_le_one g.jobs 0 (fun k j hk hfg => absurd hfg (h k j hk))
  | found cmd i => exact count_fg_le_one g.jobs 0 (fun k j hk hfg => absurd hfg (h k j hk))
  | marked i => exact count_fg_le_one g.jobs i h
  | waiting pid =>
    obtain ⟨i, hi⟩ := h
    exact count_fg_le_one g.jobs i (fun k j hk hfg => (hi k j hk hfg).1)


theorem fg_inv_init (verbose : Int) : fg_inv (init_sys verbose) := by
  intro k j hk hfg
  have hmem : j ∈ (init_sys verbose).g.jobs := List.mem_iff_getElem?.2 ⟨k, hk⟩
  simp only [init_sys, init_shell, initjobs, List.mem_map] at hmem
  obtain ⟨a, -, rfl⟩ := hmem
  simp [clearjob, UNDEF, FG] at hfg

theorem deref_of_getElem? (jobs : List job_t) (i : Nat) (j : job_t) (h : jobs[i]? = some j) :
    deref jobs i = j := by
  simp [deref, List.getD, h]

theorem fg_inv_step (s s1 : Sys) (e : Event) (hstep : step s e = some s1) (hinv : fg_inv s) :
    fg_inv s1 := by
  obtain ⟨g, c⟩ := s
  cases e with
  | launch pid bg cmdline =>
    cases c with
    | prompt =>
      simp only [step] at hstep
      split at hstep
      · exact absurd hstep (by simp)
      · by_cases hbg : bg = 0
        · simp only [eval_parent, hbg, if_true] at hstep
          obtain rfl := Option.some.inj hstep
          rcases addjob_jobs g pid FG cmdline with h | ⟨i, h⟩
          · exact ⟨0, fun k j hk hfg => absurd hfg (hinv k j (h ▸ hk))⟩
          · refine ⟨i, fun k j hk hfg => ?_⟩
            have hk2 : (slot_update (fun _ => (⟨pid, g.nextjid, FG, cmdline⟩ : job_t)) i
                g.jobs)[k]? = some j := h ▸ hk
            obtain ⟨hki, a, -, rfl⟩ := slot_update_only_fg _ i g.jobs hinv k j hk2 hfg
            exact ⟨hki, rfl⟩
        · simp only [eval_parent, hbg, if_false] at hstep
          obtain rfl := Option.some.inj hstep
          have hj : (printf (addjob g pid BG cmdline).2
              ("[" ++ fmtd (pid2jid (addjob g pid BG cmdline).2 pid) ++ "] (" ++ fmtd pid
                ++ ") " ++ cmdline)).jobs = (addjob g pid BG cmdline).2.jobs := rfl
          show no_fg _
          rw [hj]
          rcases addjob_jobs g pid BG cmdline with h | ⟨i, h⟩
          · rw [h]; exact hinv
          · rw [h]
            exact no_fg_slot_update _ i g.jobs (fun _ => by simp [BG, FG]) hinv
    | found cmd i => simp [step] at hstep
    | marked i => simp [step] at hstep
    | waiting p => simp [step] at hstep
  | bgfg argv =>
    cases c with
    | prompt =>
      simp only [step] at hstep
      have hjobs := do_bgfg_lookup_jobs g argv
      split at hstep
      · rename_i g1 i heq
        obtain rfl := Option.some.inj hstep
        rw [heq] at hjobs
        show no_fg g1.jobs
        rw [show g1.jobs = g.jobs from hjobs]; exact hinv
      · rename_i g1 heq
        obtain rfl := Option.some.inj hstep
        rw [heq] at hjobs
        show no_fg g1.jobs
        rw [show g1.jobs = g.jobs from hjobs]; exact hinv
    | found cmd i => simp [step] at hstep
    | marked i => simp [step] at hstep
    | waiting p => simp [step] at hstep
  | bgfg_write =>
    cases c with
    | found cmd i =>
      simp only [step] at hstep
      split at hstep
      · obtain rfl := Option.some.inj hstep
        intro k j hk hfg
        exact (slot_update_only_fg _ i g.jobs hinv k j hk hfg).1
      · rename_i hcmd
        obtain rfl := Option.some.inj hstep
        show no_fg _
        by_cases hb : cmd = "bg"
        · simp only [do_bgfg_apply, hb, if_true]
          exact no_fg_slot_update _ i g.jobs (fun _ => by simp [BG, FG]) hinv
        · simp only [do_bgfg_apply, hb, hcmd, if_false]
          exact hinv
    | prompt => simp [step] at hstep
    | marked i => simp [step] at hstep
    | waiting p => simp [step] at hstep
  | fg_wait =>
    cases c with
    | marked i =>
      simp only [step] at hstep
      obtain rfl := Option.some.inj hstep
      refine ⟨i, fun k j hk hfg => ?_⟩
      have hki : k = i := hinv k j hk hfg
      subst hki
      exact ⟨rfl, by rw [deref_of_getElem? g.jobs k j hk]⟩
    | prompt => simp [step] at hstep
    | found cmd i => simp [step] at hstep
    | waiting p => simp [step] at hstep
  | poll =>
    cases c with
    | waiting p =>
      simp only [step] at hstep
      split at hstep
      · obtain rfl := Option.some.inj hstep
        exact hinv
      · rename_i hw
        obtain rfl := Option.some.inj hstep
        intro k j hk hfg
        obtain ⟨i, hi⟩ := hinv
        obtain ⟨k1, j1, h1, h2, h3⟩ := fgpid_of_fg g.jobs k j hk hfg
        have := (hi k1 j1 h1 h2).2
        exact hw (by simp [waitfg, h3, this])
    | prompt => simp [step] at hstep
    | found cmd i => simp [step] at hstep
    | marked i => simp [step] at hstep
  | sigchld pending =>
    simp only [step] at hstep
    split at hstep
    · rename_i g1 rest heq
      obtain rfl := Option.some.inj hstep
      exact fg_inv_of_no_new_fg g g1 c (sigchld_handler_no_new_fg g g1 pending rest heq) hinv
    · exact absurd hstep (by simp)

theorem fg_inv_run (s s1 : Sys) (es : List Event) (hrun : run s es = some s1)
    (hinv : fg_inv s) : fg_inv s1 := by
  induction es generalizing s with
  | nil =>
    simp only [run] at hrun
    exact Option.some.inj hrun ▸ hinv
  | cons e es ih =>
    simp only [run] at hrun
    split at hrun
    · rename_i s2 heq
      exact ih s2 hrun (fg_inv_step s s2 e heq hinv)
    · exact absurd hrun (by simp)

/-- C1: in every state the shell reaches from the initialised job table by its steps (a
foreground or background launch by `eval`, the steps of `bg` and `fg`, the polling of
`waitfg`, and runs of the SIGCHLD handler between any two of them), at most one slot of the
job table has state `FG`. -/
theorem at_most_one_fg (verbose : Int) (es : List Event) (s : Sys)
    (hrun : run (init_sys verbose) es = some s) : count_fg s.g.jobs ≤ 1 :=
  count_fg_of_inv s (fg_inv_run (init_sys verbose) s es hrun (fg_inv_init verbose))


/-- Witness for C1: a foreground job is launched, stopped by the terminal, resumed with
`fg %1`, and the shell is back in `waitfg`. -/
theorem at_most_one_fg_witness :
    ∃ s, run (init_sys 0) [.launch 100 0 "sleep 5\n", .sigchld [(100, .stopped 20)], .poll,
        .bgfg ["fg", "%1"], .bgfg_write, .fg_wait, .poll] = some s ∧
      count_fg s.g.jobs ≤ 1 := by
  have h : (run (init_sys 0) [.launch 100 0 "sleep 5\n", .sigchld [(100, .stopped 20)], .poll,
      .bgfg ["fg", "%1"], .bgfg_write, .fg_wait, .poll]).isSome = true := by decide
  obtain ⟨s, hs⟩ := Option.isSome_iff_exists.1 h
  exact ⟨s, hs, at_most_one_fg 0 _ s hs⟩

/-- Run without a handler in between, the steps `bgfg_write` and `fg_wait` of an `fg`
command are the second half of `do_bgfg`. -/
theorem fg_steps_eq_do_bgfg_apply (g : Shell) (i : Nat) :
    (step ⟨g, .found "fg" i⟩ .bgfg_write).bind (fun s => step s .fg_wait)
      = some ⟨(do_bgfg_apply g "fg" i).1,
          .waiting (((do_bgfg_apply g "fg" i).2).getD 0)⟩ := by
  simp [step, do_bgfg_apply, kill, set_state]


/-! ## The table keeps its `MAXJOBS` slots -/

theorem initjobs_length (jobs : List job_t) : (initjobs jobs).length = jobs.length := by
  simp [initjobs]

theorem init_shell_length (verbose : Int) : (init_shell verbose).jobs.length = MAXJOBS := by
  simp [init_shell, initjobs]

theorem addjob_length (g : Shell) (pid state : Int) (cmdline : String) :
    (addjob g pid state cmdline).2.jobs.length = g.jobs.length := by
  rcases addjob_jobs g pid state cmdline with h | ⟨i, h⟩
  · rw [h]
  · rw [h, slot_update_length]

theorem deletejob_length (g : Shell) (pid : Int) :
    (deletejob g pid).2.jobs.length = g.jobs.length := by
  rcases deletejob_jobs g pid with h | ⟨i, h⟩
  · rw [h]
  · rw [h, slot_update_length]


/-! ## Repeated reaping -/

theorem getjobpid_split (jobs : List job_t) (p : Int) (i : Nat)
    (h : getjobpid jobs p = some i) :
    0 < p ∧ ∃ pre j post, jobs = pre ++ j :: post ∧ pre.length = i ∧ j.pid = p ∧
      ∀ x ∈ pre, x.pid ≠ p := by
  unfold getjobpid at h
  split at h
  · exact absurd h (by simp)
  · rename_i hp
    obtain ⟨pre, j, post, hj, hlen, hjp, hpre⟩ := first_slot_split _ _ _ h
    exact ⟨by omega, pre, j, post, hj, hlen, by simpa using hjp,
      fun x hx => by simpa using hpre x hx⟩

theorem digitChar_isdigit : ∀ d : Nat, d < 10 →
    isdigit (Nat.digitChar d) = true ∧ (((Nat.digitChar d).toNat : Int) - 48) = d := by
  decide

theorem atoi_digits_toDigitsCore (fuel n : Nat) (ds : List Char) (h : n < fuel) :
    atoi_digits 0 (Nat.toDigitsCore 10 fuel n ds) = atoi_digits n ds := by
  induction fuel generalizing n ds with
  | zero => omega
  | succ fuel ih =>
    obtain ⟨hd, hv⟩ := digitChar_isdigit (n % 10) (Nat.mod_lt _ (by decide))
    simp only [Nat.toDigitsCore]
    by_cases h0 : n / 10 = 0
    · simp only [h0, if_true, atoi_digits, hd, hv]
      have : n % 10 = n := Nat.mod_eq_of_lt (by omega)
      rw [this]; simp
    · simp only [h0, if_false]
      rw [ih (n / 10) _ (by omega)]
      simp only [atoi_digits, hd, if_true, hv]
      congr 1
      have := Nat.div_add_mod n 10
      push_cast
      omega

theorem digitChar_plain : ∀ d : Nat, d < 10 →
    isspace (Nat.digitChar d) = false ∧ Nat.digitChar d ≠ Char.ofNat 45 ∧
    Nat.digitChar d ≠ Char.ofNat 43 := by
  decide

theorem toDigitsCore_head (fuel n : Nat) (ds : List Char) (h : n < fuel) :
    ∃ d, d < 10 ∧ ∃ t, Nat.toDigitsCore 10 fuel n ds = Nat.digitChar d :: t := by
  induction fuel generalizing n ds with
  | zero => omega
  | succ fuel ih =>
    simp only [Nat.toDigitsCore]
    by_cases h0 : n / 10 = 0
    · exact ⟨n % 10, Nat.mod_lt _ (by decide), ds, by simp [h0]⟩
    · simp only [h0, if_false]
      exact ih (n / 10) _ (by omega)

theorem atoi_of_digit_head (d : Nat) (hd : d < 10) (t : List Char) :
    atoi (Nat.digitChar d :: t) = atoi_digits 0 (Nat.digitChar d :: t) := by
  obtain ⟨h1, h2, h3⟩ := digitChar_plain d hd
  simp [atoi, List.dropWhile, h1, h2, h3]

theorem atoi_toString (n : Nat) : atoi (toString n).data = n := by
  have h : (toString n).data = Nat.toDigitsCore 10 (n + 1) n [] := rfl
  obtain ⟨d, hd, t, ht⟩ := toDigitsCore_head (n + 1) n [] (by omega)
  rw [h, ht, atoi_of_digit_head d hd t, ← ht, atoi_digits_toDigitsCore (n + 1) n [] (by omega)]
  rfl

theorem toString_head_isdigit (n : Nat) :
    isdigit ((toString n).data.headD (Char.ofNat 0)) = true := by
  have h : (toString n).data = Nat.toDigitsCore 10 (n + 1) n [] := rfl
  obtain ⟨d, hd, t, ht⟩ := toDigitsCore_head (n + 1) n [] (by omega)
  rw [h, ht]
  exact (digitChar_isdigit d hd).1

theorem fmtd_natCast (n : Nat) : fmtd (n : Int) = toString n := rfl

/-! ## The builtins bg and fg -/

theorem do_bgfg_lookup_of_jid (g : Shell) (cmd arg : String) (rest : List String)
    (h : arg.data.headD (Char.ofNat 0) = '%') :
    do_bgfg_lookup g (cmd :: arg :: rest)
      = match getjobjid g.jobs (atoi arg.data.tail) with
        | none => (printf g (arg ++ ": No such job\n"), none)
        | some i => (g, some i) := by
  have h37 : ('%' : Char) = Char.ofNat 37 := rfl
  have hd : isdigit '%' = false := by decide
  simp only [do_bgfg_lookup, h, hd, h37]
  simp

theorem do_bgfg_lookup_of_pid (g : Shell) (cmd arg : String) (rest : List String)
    (h : isdigit (arg.data.headD (Char.ofNat 0)) = true) :
    do_bgfg_lookup g (cmd :: arg :: rest)
      = match getjobpid g.jobs (atoi arg.data) with
        | none => (printf g ("(" ++ fmtd (atoi arg.data) ++ "): No such process\n"), none)
        | some i => (g, some i) := by
  have hne : arg.data.headD (Char.ofNat 0) ≠ Char.ofNat 37 := by
    intro hc
    rw [hc] at h
    exact absurd h (by decide)
  simp only [do_bgfg_lookup, h, hne]
  simp

/-- C12 (counterexample): job 1 with pid 100 is stopped.  `bg 100abc`, whose argument is
digits followed by letters, is not rejected: the job is looked up by pid 100, set to `BG`,
announced and sent SIGCONT.  `fg %1x` likewise resumes job 1 in the foreground. -/
theorem do_bgfg_accepts_trailing_text :
    (sigchld_handler (apply_ops (init_shell 0) [.add 100 FG "sleep 5\n"])
        [(100, .stopped 20)]).map
      (fun r => ((do_bgfg r.1 ["bg", "100abc"]).1.jobs.head?,
        (do_bgfg r.1 ["bg", "100abc"]).1.sent))
      = some (some ⟨100, 1, BG, "sleep 5\n"⟩, [(-100, SIGCONT)]) ∧
    (sigchld_handler (apply_ops (init_shell 0) [.add 100 FG "sleep 5\n"])
        [(100, .stopped 20)]).map
      (fun r => ((do_bgfg r.1 ["fg", "%1x"]).1.jobs.head?,
        (do_bgfg r.1 ["fg", "%1x"]).1.sent, (do_bgfg r.1 ["fg", "%1x"]).2))
      = some (some ⟨100, 1, FG, "sleep 5\n"⟩, [(-100, SIGCONT)], some 100) := by
  decide

/-- C12 (amended): with no argument `do_bgfg` prints that the command requires a PID or
%jobid argument; with an argument whose first character is neither a digit nor `%` (an
empty argument included) it prints that the argument must be a PID or %jobid.  In both
cases it returns having done nothing else: no signal is sent, `waitfg` is not called, and
the job table and `nextjid` are unchanged. -/
theorem do_bgfg_rejects (g : Shell) (cmd : String) :
    do_bgfg g [cmd]
      = (printf g (cmd ++ " command requires PID or %jobid argument\n"), none) ∧
    (∀ (arg : String) (rest : List String),
      isdigit (arg.data.headD (Char.ofNat 0)) = false →
      arg.data.headD (Char.ofNat 0) ≠ '%' →
      do_bgfg g (cmd :: arg :: rest)
        = (printf g (cmd ++ ": argument must be a PID or %jobid\n"), none)) ∧
    (∀ s : String, (printf g s).jobs = g.jobs ∧ (printf g s).nextjid = g.nextjid ∧
      (printf g s).sent = g.sent) := by
  refine ⟨rfl, ?_, fun s => ⟨rfl, rfl, rfl⟩⟩
  intro arg rest hd hp
  have h37 : ('%' : Char) = Char.ofNat 37 := rfl
  rw [h37] at hp
  simp only [do_bgfg, do_bgfg_lookup]
  generalize arg.data.headD (Char.ofNat 0) = c at hd hp
  simp [hd, hp]

/-- C13: for a `bg` or `fg` command whose argument begins with a digit and denotes a
process id (its value fitting an `int`) that no job of the table holds, `do_bgfg` prints
`(<pid>): No such process`; when the argument is `%` followed by a job id that no job of
the table carries, it prints `<argument>: No such job`.  In both cases it returns having
done nothing else: no signal is sent, `waitfg` is not called, and every slot of the table
and `nextjid` are unchanged.  In particular, for every number `n` written in decimal, the
argument `n` gives `(n): No such process` and the argument `%n` gives `%n: No such job`. -/
theorem do_bgfg_no_such (g : Shell) (cmd arg : String) (rest : List String) :
    (isdigit (arg.data.headD (Char.ofNat 0)) = true →
      atoi arg.data ≤ INT_MAX →
      (∀ x ∈ g.jobs, 1 ≤ x.pid → x.pid ≠ atoi arg.data) →
      do_bgfg g (cmd :: arg :: rest)
        = (printf g ("(" ++ fmtd (atoi arg.data) ++ "): No such process\n"), none)) ∧
    (arg.data.headD (Char.ofNat 0) = '%' →
      atoi arg.data.tail ≤ INT_MAX →
      (∀ x ∈ g.jobs, 1 ≤ x.jid → x.jid ≠ atoi arg.data.tail) →
      do_bgfg g (cmd :: arg :: rest) = (printf g (arg ++ ": No such job\n"), none)) ∧
    (∀ n : Nat, (n : Int) ≤ INT_MAX →
      ((∀ x ∈ g.jobs, 1 ≤ x.pid → x.pid ≠ (n : Int)) →
        do_bgfg g (cmd :: toString n :: rest)
          = (printf g ("(" ++ toString n ++ "): No such process\n"), none)) ∧
      ((∀ x ∈ g.jobs, 1 ≤ x.jid → x.jid ≠ (n : Int)) →
        do_bgfg g (cmd :: ("%" ++ toString n) :: rest)
          = (printf g ("%" ++ toString n ++ ": No such job\n"), none))) ∧
    (∀ s : String, (printf g s).jobs = g.jobs ∧ (printf g s).nextjid = g.nextjid ∧
      (printf g s).sent = g.sent) := by
  have hpidform : ∀ a : String, isdigit (a.data.headD (Char.ofNat 0)) = true →
      (∀ x ∈ g.jobs, 1 ≤ x.pid → x.pid ≠ atoi a.data) →
      do_bgfg g (cmd :: a :: rest)
        = (printf g ("(" ++ fmtd (atoi a.data) ++ "): No such process\n"), none) := by
    intro a hd hno
    have hnone : getjobpid g.jobs (atoi a.data) = none := by
      unfold getjobpid
      split
      · rfl
      · rename_i h1
        refine (first_slot_none_iff _ _).2 (fun x hx => ?_)
        have hx1 : x.pid ≠ atoi a.data := by
          intro hc
          exact hno x hx (by omega) hc
        simpa using hx1
    simp only [do_bgfg, do_bgfg_lookup_of_pid g cmd a rest hd, hnone]
  have hjidform : ∀ a : String, a.data.headD (Char.ofNat 0) = '%' →
      (∀ x ∈ g.jobs, 1 ≤ x.jid → x.jid ≠ atoi a.data.tail) →
      do_bgfg g (cmd :: a :: rest) = (printf g (a ++ ": No such job\n"), none) := by
    intro a hp hno
    have hnone : getjobjid g.jobs (atoi a.data.tail) = none := by
      unfold getjobjid
      split
      · rfl
      · rename_i h1
        refine (first_slot_none_iff _ _).2 (fun x hx => ?_)
        have hx1 : x.jid ≠ atoi a.data.tail := by
          intro hc
          exact hno x hx (by omega) hc
        simpa using hx1
    simp only [do_bgfg, do_bgfg_lookup_of_jid g cmd a rest hp, hnone]
  refine ⟨fun hd _ hno => hpidform arg hd hno, fun hp _ hno => hjidform arg hp hno, ?_,
    fun s => ⟨rfl, rfl, rfl⟩⟩
  intro n _
  constructor
  · intro hno
    have h := hpidform (toString n) (toString_head_isdigit n)
      (by rw [atoi_toString]; exact hno)
    rw [atoi_toString, fmtd_natCast] at h
    exact h
  · intro hno
    have hdata : ("%" ++ toString n).data = '%' :: (toString n).data := by
      rw [String.data_append]; rfl
    have h := hjidform ("%" ++ toString n) (by rw [hdata]; rfl)
      (by rw [hdata, List.tail_cons, atoi_toString]; exact hno)
    exact h

/-- Witness for C12 (amended) -/
theorem do_bgfg_rejects_witness :
    do_bgfg (init_shell 0) ["fg", "abc"]
      = (printf (init_shell 0) ("fg" ++ ": argument must be a PID or %jobid\n"), none) :=
  (do_bgfg_rejects (init_shell 0) "fg").2.1 "abc" [] (by decide) (by decide)

/-- Witness for C13: `bg 999999` on the empty table. -/
theorem do_bgfg_no_such_witness :
    do_bgfg (init_shell 0) ["bg", "999999"]
      = (printf (init_shell 0) ("(" ++ fmtd (atoi "999999".data) ++ "): No such process\n"),
          none) ∧
    (printf (init_shell 0) ("(" ++ fmtd (atoi "999999".data) ++ "): No such process\n")).out
      = "(999999): No such process\n" :=
  ⟨(do_bgfg_no_such (init_shell 0) "bg" "999999" []).1 (by decide) (by decide) (by decide),
    by decide⟩

theorem set_state_getElem? (g : Shell) (i : Nat) (state : Int) (job : job_t)
    (hjob : g.jobs[i]? = some job) :
    (set_state g i state).jobs[i]? = some { job with state := state } ∧
    (∀ k : Nat, k ≠ i → (set_state g i state).jobs[k]? = g.jobs[k]?) ∧
    (set_state g i state).jobs.length = g.jobs.length := by
  refine ⟨?_, ?_, ?_⟩
  · simp [set_state, slot_update_getElem?, hjob]
  · intro k hk
    simp [set_state, slot_update_getElem?, hk]
  · simp [set_state, slot_update_length]

/-- C14: for a `bg` or `fg` command whose argument resolves to a job of the table, in
slot `i` (a `%jobid` found by `getjobjid`, or a pid found by `getjobpid`), `do_bgfg` sends
SIGCONT to minus the pid of the job and sends nothing else.  For `bg` the state of the job
becomes `BG` and `[jid] (pid) cmdline` is printed; for `fg` the state becomes `FG`, nothing
is printed and `waitfg` is called with the pid of the job.  The pid, jid and command line
of the job, every other slot and `nextjid` are unchanged. -/
theorem do_bgfg_resumes (g : Shell) (cmd arg : String) (rest : List String) (i : Nat)
    (job : job_t) (hcmd : cmd = "bg" ∨ cmd = "fg")
    (harg : (arg.data.headD (Char.ofNat 0) = '%' ∧
              getjobjid g.jobs (atoi arg.data.tail) = some i) ∨
            (isdigit (arg.data.headD (Char.ofNat 0)) = true ∧
              getjobpid g.jobs (atoi arg.data) = some i))
    (hjob : g.jobs[i]? = some job) :
    ∃ g1 w, do_bgfg g (cmd :: arg :: rest) = (g1, w) ∧
      g1.sent = g.sent ++ [(-job.pid, SIGCONT)] ∧
      g1.jobs[i]? = some { pid := job.pid, jid := job.jid,
                           state := (if cmd = "bg" then BG else FG),
                           cmdline := job.cmdline } ∧
      (∀ k : Nat, k ≠ i → g1.jobs[k]? = g.jobs[k]?) ∧
      g1.jobs.length = g.jobs.length ∧
      g1.nextjid = g.nextjid ∧
      g1.out = (if cmd = "bg" then
          g.out ++ ("[" ++ fmtd job.jid ++ "] (" ++ fmtd job.pid ++ ") " ++ job.cmdline)
        else g.out) ∧
      w = (if cmd = "bg" then none else some job.pid) := by
  have hlook : do_bgfg_lookup g (cmd :: arg :: rest) = (g, some i) := by
    rcases harg with ⟨hp, hget⟩ | ⟨hd, hget⟩
    · rw [do_bgfg_lookup_of_jid g cmd arg rest hp, hget]
    · rw [do_bgfg_lookup_of_pid g cmd arg rest hd, hget]
  have hdo : do_bgfg g (cmd :: arg :: rest) = do_bgfg_apply g cmd i := by
    simp only [do_bgfg, hlook, List.headD_cons]
  rw [hdo]
  rcases hcmd with rfl | rfl
  · obtain ⟨h1, h2, h3⟩ := set_state_getElem? g i BG job hjob
    have hd := deref_of_getElem? _ i _ h1
    have hs : (set_state g i BG).sent = g.sent := rfl
    have ho : (set_state g i BG).out = g.out := rfl
    have hn : (set_state g i BG).nextjid = g.nextjid := rfl
    refine ⟨_, _, rfl, ?_, ?_, ?_, ?_, ?_, ?_, ?_⟩
    · simp [do_bgfg_apply, kill, printf, hd, hs]
    · simpa [do_bgfg_apply, kill, printf] using h1
    · intro k hk
      simpa [do_bgfg_apply, kill, printf] using h2 k hk
    · simpa [do_bgfg_apply, kill, printf] using h3
    · simp [do_bgfg_apply, kill, printf, hn]
    · simp [do_bgfg_apply, kill, printf, hd, ho]
    · simp [do_bgfg_apply]
  · obtain ⟨h1, h2, h3⟩ := set_state_getElem? g i FG job hjob
    have hd := deref_of_getElem? _ i _ h1
    have hs : (set_state g i FG).sent = g.sent := rfl
    have ho : (set_state g i FG).out = g.out := rfl
    have hn : (set_state g i FG).nextjid = g.nextjid := rfl
    refine ⟨_, _, rfl, ?_, ?_, ?_, ?_, ?_, ?_, ?_⟩
    · simp [do_bgfg_apply, kill, hd, hs]
    · simpa [do_bgfg_apply, kill] using h1
    · intro k hk
      simpa [do_bgfg_apply, kill] using h2 k hk
    · simpa [do_bgfg_apply, kill] using h3
    · simp [do_bgfg_apply, kill, hn]
    · simp [do_bgfg_apply, kill, ho]
    · have hd2 : deref (kill (set_state g i FG) (-(deref (set_state g i FG).jobs i).pid)
          SIGCONT).jobs i = { job with state := FG } := hd
      simp [do_bgfg_apply, hd2]

/-- Witness for C14: `fg %1` on a table whose job 1, pid 100, is stopped. -/
theorem do_bgfg_resumes_witness :
    ∃ g1 w, do_bgfg (apply_ops (init_shell 0) [.add 100 ST "sleep 5\n"]) ("fg" :: "%1" :: [])
        = (g1, w) ∧
      g1.sent = (apply_ops (init_shell 0) [.add 100 ST "sleep 5\n"]).sent
        ++ [(-(⟨100, 1, ST, "sleep 5\n"⟩ : job_t).pid, SIGCONT)] ∧
      g1.jobs[0]? = some { pid := 100, jid := 1, state := (if "fg" = "bg" then BG else FG),
                           cmdline := "sleep 5\n" } ∧
      (∀ k : Nat, k ≠ 0 →
        g1.jobs[k]? = (apply_ops (init_shell 0) [.add 100 ST "sleep 5\n"]).jobs[k]?) ∧
      g1.jobs.length = (apply_ops (init_shell 0) [.add 100 ST "sleep 5\n"]).jobs.length ∧
      g1.nextjid = (apply_ops (init_shell 0) [.add 100 ST "sleep 5\n"]).nextjid ∧
      g1.out = (if "fg" = "bg" then
          (apply_ops (init_shell 0) [.add 100 ST "sleep 5\n"]).out
            ++ ("[" ++ fmtd 1 ++ "] (" ++ fmtd 100 ++ ") " ++ "sleep 5\n")
        else (apply_ops (init_shell 0) [.add 100 ST "sleep 5\n"]).out) ∧
      w = (if "fg" = "bg" then none else some 100) :=
  do_bgfg_resumes (apply_ops (init_shell 0) [.add 100 ST "sleep 5\n"]) "fg" "%1" [] 0
    ⟨100, 1, ST, "sleep 5\n"⟩ (Or.inr rfl) (Or.inl ⟨by decide, by decide⟩) (by decide)


/-! ## The signal relay -/

theorem fgpid_of_no_fg (jobs : List job_t) (h : ∀ x ∈ jobs, x.state ≠ FG) : fgpid jobs = 0 := by
  induction jobs with
  | nil => rfl
  | cons a l ih =>
    have ha : a.state ≠ FG := h a (List.mem_cons_self _ _)
    simp [fgpid, ha, ih (fun x hx => h x (List.mem_cons_of_mem _ hx))]

theorem fgpid_of_some_fg (jobs : List job_t) (h : ∃ x ∈ jobs, x.state = FG) :
    ∃ pre j post, jobs = pre ++ j :: post ∧ j.state = FG ∧ (∀ x ∈ pre, x.state ≠ FG) ∧
      fgpid jobs = j.pid := by
  induction jobs with
  | nil => obtain ⟨x, hx, -⟩ := h; simp at hx
  | cons a l ih =>
    by_cases ha : a.state = FG
    · exact ⟨[], a, l, rfl, ha, by simp, by simp [fgpid, ha]⟩
    · have hl : ∃ x ∈ l, x.state = FG := by
        obtain ⟨x, hx, hfg⟩ := h
        rcases List.mem_cons.1 hx with rfl | hx
        · exact absurd hfg ha
        · exact ⟨x, hx, hfg⟩
      obtain ⟨pre, j, post, hj, hfg, hpre, hpid⟩ := ih hl
      refine ⟨a :: pre, j, post, by simp [hj], hfg, ?_, by simp [fgpid, ha, hpid]⟩
      intro x hx
      rcases List.mem_cons.1 hx with rfl | hx
      · exact ha
      · exact hpre x hx

theorem do_redirect_in (can_open : String → Bool) (file : String) (rest : List String) :
    do_redirect can_open ("<" :: file :: rest)
      = if can_open file then
          (do_redirect can_open (file :: rest)).map
            (fun r => ⟨none :: r.argv, (0, file) :: r.dups⟩)
        else none := by
  rw [do_redirect]; rfl

theorem do_redirect_out (can_open : String → Bool) (file : String) (rest : List String) :
    do_redirect can_open (">" :: file :: rest)
      = if can_open file then
          (do_redirect can_open (file :: rest)).map
            (fun r => ⟨none :: r.argv, (1, file) :: r.dups⟩)
        else none := by
  rw [do_redirect]
  have hne : ¬ (">" = "<") := by decide
  simp only [hne, if_false, if_true]

theorem do_redirect_last (can_open : String → Bool) (a : String) (h : is_redirect a = true) :
    do_redirect can_open [a] = none := by
  simp only [is_redirect, Bool.or_eq_true, beq_iff_eq] at h
  rcases h with rfl | rfl
  · rfl
  · rfl

theorem do_redirect_other (can_open : String → Bool) (a : String) (rest : List String)
    (h : is_redirect a = false) :
    do_redirect can_open (a :: rest)
      = (do_redirect can_open rest).map (fun r => ⟨some a :: r.argv, r.dups⟩) := by
  simp only [is_redirect, Bool.or_eq_false_iff, beq_eq_false_iff_ne, ne_eq] at h
  conv_lhs => rw [do_redirect.eq_def]
  simp only [h.1, h.2, if_false]

theorem exec_args_do_redirect (can_open : String → Bool) (argv : List String)
    (r : redirect_result) (h : do_redirect can_open argv = some r) :
    exec_args r.argv = argv.takeWhile (fun a => !is_redirect a) := by
  induction argv generalizing r with
  | nil =>
    rw [do_redirect] at h
    obtain rfl := Option.some.inj h
    rfl
  | cons a rest ih =>
    by_cases hr : is_redirect a = true
    · have htw : (a :: rest).takeWhile (fun a => !is_redirect a) = [] := by
        simp [List.takeWhile, hr]
      rw [htw]
      cases rest with
      | nil =>
        rw [do_redirect_last can_open a hr] at h
        exact absurd h (by simp)
      | cons file rest2 =>
        simp only [is_redirect, Bool.or_eq_true, beq_iff_eq] at hr
        rcases hr with rfl | rfl
        · rw [do_redirect_in] at h
          split at h
          · obtain ⟨r2, -, rfl⟩ := Option.map_eq_some'.1 h
            rfl
          · exact absurd h (by simp)
        · rw [do_redirect_out] at h
          split at h
          · obtain ⟨r2, -, rfl⟩ := Option.map_eq_some'.1 h
            rfl
          · exact absurd h (by simp)
    · have hr2 : is_redirect a = false := by simpa using hr
      rw [do_redirect_other can_open a rest hr2] at h
      obtain ⟨r2, hr2e, rfl⟩ := Option.map_eq_some'.1 h
      simp [exec_args, List.takeWhile, hr2, ih r2 hr2e]

theorem do_redirect_returns (can_open : String → Bool) (argv : List String)
    (hopen : ∀ f, can_open f = true)
    (hlast : ∀ a, argv.getLast? = some a → is_redirect a = false) :
    (do_redirect can_open argv).isSome = true := by
  induction argv with
  | nil => rfl
  | cons a rest ih =>
    cases rest with
    | nil =>
      have ha := hlast a rfl
      rw [do_redirect_other can_open a [] ha]
      rfl
    | cons b rest2 =>
      have ih2 := ih (fun x hx => hlast x (by simpa using hx))
      obtain ⟨r, hr⟩ := Option.isSome_iff_exists.1 ih2
      by_cases hra : is_redirect a = true
      · simp only [is_redirect, Bool.or_eq_true, beq_iff_eq] at hra
        rcases hra with rfl | rfl
        · rw [do_redirect_in, hopen b, hr]; rfl
        · rw [do_redirect_out, hopen b, hr]; rfl
      · have hra2 : is_redirect a = false := by simpa using hra
        rw [do_redirect_other can_open a _ hra2, hr]; rfl

/-- C17 (counterexample): for `/bin/echo > out.txt hi` the program is loaded with the single
argument `/bin/echo`; the argument `hi`, which follows the redirection, is not kept. -/
theorem do_redirect_drops_later_args :
    (do_redirect (fun _ => true) ["/bin/echo", ">", "out.txt", "hi"]).map
      (fun r => (exec_args r.argv, r.dups))
      = some (["/bin/echo"], [(1, "out.txt")]) := by
  decide

/-- C17 (amended): whenever `do_redirect` returns, the argument list the external program
is loaded with is the original list cut at its first `<` or `>` token: the arguments before
the first redirection token, in their order, and nothing else, so that no redirection token
remains.  It does return when every file can be opened and the last argument is not a
redirection token. -/
theorem do_redirect_cuts (can_open : String → Bool) (argv : List String) :
    (∀ r, do_redirect can_open argv = some r →
      exec_args r.argv = argv.takeWhile (fun a => !is_redirect a) ∧
      (∀ a ∈ exec_args r.argv, a ≠ "<" ∧ a ≠ ">") ∧
      ∃ rest, argv = exec_args r.argv ++ rest ∧ ∀ a, rest.head? = some a → a = "<" ∨ a = ">") ∧
    ((∀ f, can_open f = true) → (∀ a, argv.getLast? = some a → is_redirect a = false) →
      (do_redirect can_open argv).isSome = true) := by
  refine ⟨fun r h => ?_, do_redirect_returns can_open argv⟩
  have he := exec_args_do_redirect can_open argv r h
  refine ⟨he, ?_, argv.dropWhile (fun a => !is_redirect a), ?_, ?_⟩
  · intro a ha
    rw [he] at ha
    have := List.mem_takeWhile_imp ha
    simpa [is_redirect] using this
  · rw [he, List.takeWhile_append_dropWhile]
  · intro a ha
    have hmem : (argv.dropWhile (fun a => !is_redirect a)).head? = some a := ha
    have := List.head?_dropWhile_not (fun a => !is_redirect a) argv
    rw [hmem] at this
    have h2 : ¬ a = "<" → a = ">" := by simpa [is_redirect] using this
    by_cases h1 : a = "<"
    · exact Or.inl h1
    · exact Or.inr (h2 h1)

/-- Witness for C17 (amended) -/
theorem do_redirect_cuts_witness :
    exec_args (⟨[some "/bin/echo", some "hi", none, some "out.txt"], [(1, "out.txt")]⟩ :
        redirect_result).argv
      = ["/bin/echo", "hi", ">", "out.txt"].takeWhile (fun a => !is_redirect a) :=
  ((do_redirect_cuts (fun _ => true) ["/bin/echo", "hi", ">", "out.txt"]).1
    ⟨[some "/bin/echo", some "hi", none, some "out.txt"], [(1, "out.txt")]⟩ (by decide)).1


/-! ## Listing the jobs -/

theorem listjobs_loop_eq_listing_from (n : Nat) (jobs : List job_t) :
    listjobs_loop n jobs = listing_from n jobs := by
  induction jobs generalizing n with
  | nil => rfl
  | cons j rest ih =>
    have ih1 := ih (n + 1)
    unfold listing_from at ih1 ⊢
    by_cases hp : j.pid = 0
    · simp [listjobs_loop, hp, List.enumFrom, ih1]
    · simp [listjobs_loop, hp, List.enumFrom, ih1]

theorem state_text_word (i : Nat) (state : Int)
    (h : state = BG ∨ state = FG ∨ state = ST) :
    state_text i state = status_word state ++ " " := by
  rcases h with rfl | rfl | rfl <;> rfl

theorem listjobs_loop_eq_listing (n : Nat) (jobs : List job_t)
    (h : ∀ j ∈ jobs, j.pid ≠ 0 → j.state = BG ∨ j.state = FG ∨ j.state = ST) :
    listjobs_loop n jobs = listing jobs := by
  induction jobs generalizing n with
  | nil => rfl
  | cons j rest ih =>
    have ih1 := ih (n + 1) (fun x hx => h x (List.mem_cons_of_mem _ hx))
    unfold listing at ih1 ⊢
    by_cases hp : j.pid = 0
    · simp [listjobs_loop, hp, ih1]
    · have hw := state_text_word n j.state (h j (List.mem_cons_self _ _) hp)
      simp [listjobs_loop, hp, ih1, job_entry, hw, String.append_assoc]

/-- C18: for every job table `listjobs` prints, for each live slot (process id other than 0)
and in increasing slot order, `[jid] (pid) ` followed by the text for the state of the job
and by its command line, and prints nothing for an empty slot; the text for the state is
`Running ` for `BG`, `Foreground ` for `FG` and `Stopped ` for `ST`.  So when every live
job is in one of these states the output is the listing with one entry
`[jid] (pid) <word> <cmdline>` per live job, and the job ids printed are those of the live
jobs.  The call changes nothing but the output. -/
theorem listjobs_prints_listing (g : Shell) :
    (listjobs g).out = g.out ++ listing_from 0 g.jobs ∧
    (∀ i : Nat, state_text i BG = "Running " ∧ state_text i FG = "Foreground " ∧
      state_text i ST = "Stopped ") ∧
    ((∀ j ∈ g.jobs, j.pid ≠ 0 → j.state = BG ∨ j.state = FG ∨ j.state = ST) →
      (listjobs g).out = g.out ++ listing g.jobs) ∧
    (listjobs g).jobs = g.jobs ∧ (listjobs g).nextjid = g.nextjid ∧
    (listjobs g).sent = g.sent := by
  refine ⟨?_, fun i => ⟨rfl, rfl, rfl⟩, fun h => ?_, rfl, rfl, rfl⟩
  · simp [listjobs, printf, listjobs_loop_eq_listing_from]
  · simp [listjobs, printf, listjobs_loop_eq_listing 0 g.jobs h]

/-- Witness for C18: two jobs, one running in the background and one stopped. -/
theorem listjobs_prints_listing_witness :
    (listjobs (apply_ops (init_shell 0) [.add 5 BG "a &\n", .add 6 ST "b\n"])).out
      = (apply_ops (init_shell 0) [.add 5 BG "a &\n", .add 6 ST "b\n"]).out
        ++ listing (apply_ops (init_shell 0) [.add 5 BG "a &\n", .add 6 ST "b\n"]).jobs ∧
    listing (apply_ops (init_shell 0) [.add 5 BG "a &\n", .add 6 ST "b\n"]).jobs
      = "[1] (5) Running a &\n[2] (6) Stopped b\n" :=
  ⟨(listjobs_prints_listing
      (apply_ops (init_shell 0) [.add 5 BG "a &\n", .add 6 ST "b\n"])).2.2.1 (by decide),
    by decide⟩


/-! ## Parsing the command line -/

theorem strchr_append (c : Char) (a r : List Char) (h : c ∉ a) :
    strchr c (a ++ c :: r) = some (a, r) := by
  induction a with
  | nil => simp [strchr]
  | cons x a ih =>
    have hx : x ≠ c := fun hxc => h (by simp [hxc])
    have ha : c ∉ a := fun hc => h (List.mem_cons_of_mem _ hc)
    simp [strchr, hx, ih ha]

theorem strchr_length (c : Char) (l a r : List Char) (h : strchr c l = some (a, r)) :
    r.length < l.length := by
  induction l generalizing a with
  | nil => simp [strchr] at h
  | cons x l ih =>
    by_cases hx : x = c
    · simp [strchr, hx] at h
      obtain ⟨-, rfl⟩ := h
      simp
    · simp only [strchr, hx, if_false, Option.map_eq_some'] at h
      obtain ⟨⟨a2, r2⟩, h2, h3⟩ := h
      obtain ⟨-, rfl⟩ := Prod.mk.inj h3
      have := ih a2 h2
      simp only [List.length_cons]
      dsimp only at this ⊢
      omega

theorem skip_spaces_length (l : List Char) : (skip_spaces l).length ≤ l.length := by
  induction l with
  | nil => simp [skip_spaces]
  | cons x l ih =>
    by_cases hx : x = ' '
    · simp only [skip_spaces, hx, if_true, List.length_cons]; omega
    · simp [skip_spaces, hx]

theorem skip_spaces_of_ne (x : Char) (l : List Char) (h : x ≠ ' ') :
    skip_spaces (x :: l) = x :: l := by
  simp [skip_spaces, h]

theorem next_delim_length (buf a r : List Char) (h : next_delim buf = some (a, r)) :
    r.length < buf.length := by
  cases buf with
  | nil => simp [next_delim, strchr] at h
  | cons x l =>
    by_cases hx : x = QUOTE
    · simp only [next_delim, hx, if_true] at h
      have := strchr_length QUOTE l a r h
      simp only [List.length_cons]; omega
    · simp only [next_delim, hx, if_false] at h
      exact strchr_length ' ' (x :: l) a r h

theorem parse_loop_fuel (fuel1 fuel2 : Nat) (buf : List Char)
    (h1 : buf.length < fuel1) (h2 : buf.length < fuel2) :
    parse_loop fuel1 buf = parse_loop fuel2 buf := by
  induction fuel1 generalizing fuel2 buf with
  | zero => omega
  | succ n ih =>
    cases fuel2 with
    | zero => omega
    | succ m =>
      simp only [parse_loop]
      cases hnd : next_delim buf with
      | none => rfl
      | some p =>
        obtain ⟨a, r⟩ := p
        have hr := next_delim_length buf a r hnd
        have hs := skip_spaces_length r
        simp only
        rw [ih m (skip_spaces r) (by omega) (by omega)]

theorem skip_spaces_idem (l : List Char) : skip_spaces (skip_spaces l) = skip_spaces l := by
  induction l with
  | nil => rfl
  | cons x l ih =>
    by_cases hx : x = ' '
    · simp only [skip_spaces, hx, if_true]; exact ih
    · simp [skip_spaces, hx]

theorem parse_buf_step (buf a r : List Char) (h : next_delim (skip_spaces buf) = some (a, r)) :
    parse_buf buf = a :: parse_buf r := by
  have hr := next_delim_length _ a r h
  have hs := skip_spaces_length r
  have hf := parse_loop_fuel (skip_spaces buf).length ((skip_spaces r).length + 1)
    (skip_spaces r) (by omega) (by omega)
  unfold parse_buf
  rw [parse_loop, h]
  simp only
  rw [hf]

theorem parse_buf_none (buf : List Char) (h : next_delim (skip_spaces buf) = none) :
    parse_buf buf = [] := by
  unfold parse_buf
  rw [parse_loop, h]

theorem parse_buf_space (rest : List Char) : parse_buf (' ' :: rest) = parse_buf rest := by
  unfold parse_buf
  simp [skip_spaces]

theorem parse_buf_nil : parse_buf [] = [] := by
  decide

theorem parse_buf_word (w rest : List Char) (hw : w ≠ []) (hsp : ' ' ∉ w) (hq : QUOTE ∉ w) :
    parse_buf (w ++ ' ' :: rest) = w :: parse_buf rest := by
  cases w with
  | nil => exact absurd rfl hw
  | cons c w =>
    have hc : c ≠ ' ' := fun h => hsp (by simp [h])
    have hcq : c ≠ QUOTE := fun h => hq (by simp [h])
    apply parse_buf_step
    rw [List.cons_append, skip_spaces_of_ne c _ hc]
    simp only [next_delim, hcq, if_false]
    exact strchr_append ' ' (c :: w) rest hsp

theorem parse_buf_quoted (q rest : List Char) (hq : QUOTE ∉ q) :
    parse_buf (QUOTE :: (q ++ QUOTE :: rest)) = q :: parse_buf rest := by
  have hc : QUOTE ≠ ' ' := by decide
  apply parse_buf_step
  rw [skip_spaces_of_ne QUOTE _ hc]
  simp only [next_delim, if_true]
  exact strchr_append QUOTE q rest hq

theorem runs_space (l : List Char) : runs (' ' :: l) = runs l := by
  conv_lhs => rw [runs.eq_def]
  simp only [if_true]

theorem runs_single (c : Char) (hc : c ≠ ' ') : runs [c] = [[c]] := by
  conv_lhs => rw [runs.eq_def]
  simp only [hc, if_false]

theorem runs_cons_space (c : Char) (l : List Char) (hc : c ≠ ' ') :
    runs (c :: ' ' :: l) = [c] :: runs l := by
  conv_lhs => rw [runs.eq_def]
  simp only [hc, if_false, if_true, runs_space]

theorem runs_cons_cons (c d : Char) (l : List Char) (hc : c ≠ ' ') (hd : d ≠ ' ') :
    runs (c :: d :: l)
      = match runs (d :: l) with
        | r :: rs => (c :: r) :: rs
        | [] => [[c]] := by
  conv_lhs => rw [runs.eq_def]
  simp only [hc, hd, if_false]

theorem runs_word (w : List Char) (hw : w ≠ []) (hsp : ' ' ∉ w) : runs w = [w] := by
  induction w with
  | nil => exact absurd rfl hw
  | cons c w ih =>
    have hc : c ≠ ' ' := fun h => hsp (by simp [h])
    cases w with
    | nil => exact runs_single c hc
    | cons d w =>
      have hd : d ≠ ' ' := fun h => hsp (by simp [h])
      have := ih (by simp) (fun h => hsp (List.mem_cons_of_mem _ h))
      rw [runs_cons_cons c d w hc hd, this]

theorem runs_word_space (w p : List Char) (hw : w ≠ []) (hsp : ' ' ∉ w) :
    runs (w ++ ' ' :: p) = w :: runs p := by
  induction w with
  | nil => exact absurd rfl hw
  | cons c w ih =>
    have hc : c ≠ ' ' := fun h => hsp (by simp [h])
    cases w with
    | nil => exact runs_cons_space c p hc
    | cons d w =>
      have hd : d ≠ ' ' := fun h => hsp (by simp [h])
      have := ih (by simp) (fun h => hsp (List.mem_cons_of_mem _ h))
      simp only [List.cons_append] at this ⊢
      rw [runs_cons_cons c d _ hc hd, this]

theorem split_at_space (l : List Char) (h : ' ' ∈ l) :
    ∃ w p, l = w ++ ' ' :: p ∧ ' ' ∉ w := by
  induction l with
  | nil => simp at h
  | cons x l ih =>
    by_cases hx : x = ' '
    · exact ⟨[], l, by simp [hx], by simp⟩
    · have hl : ' ' ∈ l := by
        rcases List.mem_cons.1 h with h | h
        · exact absurd h.symm hx
        · exact h
      obtain ⟨w, p, rfl, hw⟩ := ih hl
      refine ⟨x :: w, p, rfl, ?_⟩
      intro hm
      rcases List.mem_cons.1 hm with h | h
      · exact hx h.symm
      · exact hw h

theorem parse_buf_unquoted (n : Nat) (pre tail : List Char) (hn : pre.length ≤ n)
    (hq : QUOTE ∉ pre) :
    parse_buf (pre ++ ' ' :: tail) = runs pre ++ parse_buf tail := by
  induction n generalizing pre with
  | zero =>
    have : pre = [] := List.length_eq_zero.1 (by omega)
    subst this
    rw [List.nil_append, parse_buf_space]; rfl
  | succ n ih =>
    cases pre with
    | nil => rw [List.nil_append, parse_buf_space]; rfl
    | cons c p =>
      have hqp : QUOTE ∉ p := fun h => hq (List.mem_cons_of_mem _ h)
      have hlen : p.length ≤ n := by simp only [List.length_cons] at hn; omega
      by_cases hc : c = ' '
      · subst hc
        rw [List.cons_append, parse_buf_space, ih p hlen hqp, runs_space]
      · by_cases hsp : ' ' ∈ c :: p
        · obtain ⟨w, p2, hwp, hw⟩ := split_at_space (c :: p) hsp
          have hwne : w ≠ [] := by
            intro h0
            rw [h0] at hwp
            simp only [List.nil_append, List.cons.injEq] at hwp
            exact hc hwp.1
          have hqw : QUOTE ∉ w := fun h => hq (by rw [hwp]; simp [h])
          have hqp2 : QUOTE ∉ p2 := fun h => hq (by rw [hwp]; simp [h])
          have hlen2 : p2.length ≤ n := by
            have := congrArg List.length hwp
            simp only [List.length_cons, List.length_append] at this hn
            omega
          rw [hwp, List.append_assoc, List.cons_append,
            parse_buf_word w (p2 ++ ' ' :: tail) hwne hw hqw, ih p2 hlen2 hqp2,
            runs_word_space w p2 hwne hw]
          rfl
        · rw [parse_buf_word (c :: p) tail (by simp) hsp hq, runs_word (c :: p) (by simp) hsp]
          rfl

theorem runs_append_space (l : List Char) : runs (l ++ [' ']) = runs l := by
  induction l with
  | nil => rw [List.nil_append, runs_space]
  | cons c l ih =>
    by_cases hc : c = ' '
    · subst hc
      rw [List.cons_append, runs_space, runs_space, ih]
    · cases l with
      | nil =>
        rw [List.cons_append, List.nil_append, runs_cons_space c [] hc, runs_single c hc]
        rfl
      | cons d l =>
        simp only [List.cons_append] at ih ⊢
        by_cases hd : d = ' '
        · subst hd
          rw [runs_cons_space c _ hc, runs_cons_space c _ hc]
          rw [runs_space, runs_space] at ih
          rw [ih]
        · rw [runs_cons_cons c d _ hc hd, runs_cons_cons c d _ hc hd, ih]

theorem runs_no_space (l : List Char) : ∀ r ∈ runs l, r ≠ [] ∧ ' ' ∉ r := by
  induction l with
  | nil => intro r hr; simp [runs] at hr
  | cons c l ih =>
    by_cases hc : c = ' '
    · subst hc
      rw [runs_space]; exact ih
    · cases l with
      | nil =>
        intro r hr
        rw [runs_single c hc, List.mem_singleton] at hr
        subst hr
        simp [Ne.symm hc]
      | cons d l =>
        by_cases hd : d = ' '
        · subst hd
          intro r hr
          rw [runs_cons_space c l hc] at hr
          rw [runs_space] at ih
          rcases List.mem_cons.1 hr with rfl | hr
          · simp [Ne.symm hc]
          · exact ih r hr
        · intro r hr
          rw [runs_cons_cons c d l hc hd] at hr
          cases hruns : runs (d :: l) with
          | nil =>
            rw [hruns] at hr
            simp only [List.mem_singleton] at hr
            subst hr
            simp [Ne.symm hc]
          | cons r1 rs =>
            rw [hruns] at hr ih
            rcases List.mem_cons.1 hr with rfl | hr
            · have := ih r1 (List.mem_cons_self _ _)
              refine ⟨by simp, ?_⟩
              intro hm
              rcases List.mem_cons.1 hm with h | h
              · exact hc h.symm
              · exact this.2 h
            · exact ih r (List.mem_cons_of_mem _ hr)


theorem runs_join (l : List Char) : (runs l).flatten = l.filter (fun c => c != ' ') := by
  induction l with
  | nil => rfl
  | cons c l ih =>
    by_cases hc : c = ' '
    · subst hc
      rw [runs_space, ih]
      simp
    · cases l with
      | nil => rw [runs_single c hc]; simp [hc]
      | cons d l =>
        by_cases hd : d = ' '
        · subst hd
          rw [runs_cons_space c l hc]
          rw [runs_space] at ih
          simp [hc, ih]
        · rw [runs_cons_cons c d l hc hd]
          cases hr : runs (d :: l) with
          | nil =>
            rw [hr] at ih
            have : d ∈ (d :: l).filter (fun c => c != ' ') := by simp [hd]
            rw [← ih] at this
            simp at this
          | cons r rs =>
            rw [hr] at ih
            simp only [List.flatten_cons, List.cons_append] at ih ⊢
            rw [ih]
            simp [hc]

theorem parseline_eq (cmdline : String) :
    parseline cmdline
      = match (parse_args cmdline.data).getLast? with
        | none => ([], 1)
        | some last =>
          if last.head? = some '&' then
            ((parse_args cmdline.data).dropLast.map String.mk, 1)
          else ((parse_args cmdline.data).map String.mk, 0) := by
  unfold parseline
  simp only [List.getLast?_map]
  cases h : (parse_args cmdline.data).getLast? with
  | none =>
    simp
  | some last =>
    simp only [Option.map_some']
    by_cases hl : last.head? = some '&'
    · simp [hl, List.map_dropLast]
    · simp [hl]

/-- C16 (counterexample): the last token of `sleep 5 &x` is `&x`, a longer token that
starts with `&`; `parseline` reports a background job and strips the token. -/
theorem parseline_strips_longer_token :
    parse_args "sleep 5 &x\n".data = ["sleep".data, "5".data, "&x".data] ∧
    parseline "sleep 5 &x\n" = (["sleep", "5"], 1) := by
  decide

/-- C16 (amended): for a command line that is not blank, with last token `last`,
`parseline` reports a background job (returns 1) exactly when `last` begins with `&`, and
then the arguments it leaves are the tokens without the last one; when `last` begins with
another character, or is empty, it returns 0 and the arguments are all the tokens. -/
theorem parseline_background (cmdline : String) (last : List Char)
    (hlast : (parse_args cmdline.data).getLast? = some last) :
    ((parseline cmdline).2 = 1 ↔ last.head? = some '&') ∧
    (last.head? = some '&' →
      parseline cmdline = ((parse_args cmdline.data).dropLast.map String.mk, 1)) ∧
    (last.head? ≠ some '&' →
      parseline cmdline = ((parse_args cmdline.data).map String.mk, 0)) := by
  rw [parseline_eq, hlast]
  by_cases hl : last.head? = some '&'
  · simp [hl]
  · simp [hl]

/-- Witness for C16 (amended) -/
theorem parseline_background_witness :
    ((parseline "sleep 5 &\n").2 = 1 ↔ "&".data.head? = some '&') ∧
    ("&".data.head? = some '&' →
      parseline "sleep 5 &\n"
        = ((parse_args "sleep 5 &\n".data).dropLast.map String.mk, 1)) ∧
    ("&".data.head? ≠ some '&' →
      parseline "sleep 5 &\n" = ((parse_args "sleep 5 &\n".data).map String.mk, 0)) :=
  parseline_background "sleep 5 &\n" "&".data (by decide)

theorem parse_args_unquoted (body : List Char) (c : Char) (hq : QUOTE ∉ body) :
    parse_args (body ++ [c]) = runs body := by
  unfold parse_args
  rw [List.dropLast_concat, parse_buf_unquoted body.length body [] (le_refl _) hq,
    parse_buf_nil, List.append_nil]

theorem dropLast_append_cons (l r : List Char) (x : Char) :
    (l ++ x :: r).dropLast = l ++ (x :: r).dropLast := by
  induction l with
  | nil => rfl
  | cons a l ih =>
    cases hl : l ++ x :: r with
    | nil => simp at hl
    | cons b t =>
      rw [List.cons_append, hl, List.dropLast_cons₂, ← hl, ih]
      rfl

/-- C20 (counterexample): for the line `a &x`, which has no quote, the maximal runs of
non-space characters are `a` and `&x`, and the final one is not the token `&`; the
argument vector `parseline` builds is `a` alone. -/
theorem parseline_unquoted_strips_longer_token :
    runs "a &x".data = ["a".data, "&x".data] ∧ parseline "a &x\n" = (["a"], 1) := by
  decide

/-- C20 (amended): for a command line `body` followed by its newline, with no single quote
in `body`, the arguments `parseline` collects are exactly the maximal runs of non-space
characters of `body`, in order, none of them empty or holding a space, and together all
the non-space characters of `body`; the argument vector it returns is
these runs without the last one when the last one begins with `&` (the job is then a
background job).  An argument opened by a quote, at the start of the line or after a space
that follows unquoted text, is the text up to the next quote, spaces included; and so it
is at every turn of the loop, whatever the buffer holds after the closing quote. -/
theorem parseline_unquoted (body : List Char) (c : Char) (hq : QUOTE ∉ body) :
    parse_args (body ++ [c]) = runs body ∧
    (∀ r ∈ runs body, r ≠ [] ∧ ' ' ∉ r) ∧
    (runs body).flatten = body.filter (fun x => x != ' ') ∧
    parseline ⟨body ++ [c]⟩
      = (match (runs body).getLast? with
        | none => ([], 1)
        | some last =>
          if last.head? = some '&' then ((runs body).dropLast.map String.mk, 1)
          else ((runs body).map String.mk, 0)) ∧
    (∀ q rest : List Char, QUOTE ∉ q → rest ≠ [] →
      parse_args (QUOTE :: (q ++ QUOTE :: rest)) = q :: parse_args rest ∧
      parse_args (body ++ ' ' :: QUOTE :: (q ++ QUOTE :: rest))
        = runs body ++ q :: parse_args rest) ∧
    (∀ q rest : List Char, QUOTE ∉ q →
      parse_buf (QUOTE :: (q ++ QUOTE :: rest)) = q :: parse_buf rest) := by
  have h1 := parse_args_unquoted body c hq
  refine ⟨h1, runs_no_space body, runs_join body, ?_, ?_,
    fun q rest hqq => parse_buf_quoted q rest hqq⟩
  · rw [parseline_eq]
    simp only [h1]
  · intro q rest hqq hrest
    obtain ⟨x, r, rfl⟩ := List.exists_cons_of_ne_nil hrest
    have hd1 : (QUOTE :: (q ++ QUOTE :: x :: r)).dropLast
        = QUOTE :: (q ++ QUOTE :: (x :: r).dropLast) := by
      have := dropLast_append_cons (QUOTE :: (q ++ [QUOTE])) r x
      simpa using this
    have hd2 : (body ++ ' ' :: QUOTE :: (q ++ QUOTE :: x :: r)).dropLast
        = body ++ ' ' :: QUOTE :: (q ++ QUOTE :: (x :: r).dropLast) := by
      have := dropLast_append_cons (body ++ ' ' :: QUOTE :: (q ++ [QUOTE])) r x
      simpa using this
    constructor
    · unfold parse_args
      rw [hd1, List.cons_append, List.append_assoc, List.cons_append, parse_buf_quoted _ _ hqq]
    · unfold parse_args
      rw [hd2, List.append_assoc, List.cons_append, List.cons_append, List.append_assoc,
        List.cons_append,
        parse_buf_unquoted body.length body _ (le_refl _) hq, parse_buf_quoted _ _ hqq]

/-- Witness for C20 (amended) -/
theorem parseline_unquoted_witness :
    parse_args ("/bin/ls  -l /tmp".data ++ [Char.ofNat 10]) = runs "/bin/ls  -l /tmp".data ∧
    runs "/bin/ls  -l /tmp".data = ["/bin/ls".data, "-l".data, "/tmp".data] :=
  ⟨(parseline_unquoted "/bin/ls  -l /tmp".data (Char.ofNat 10) (by decide)).1, by decide⟩


/-! ## Dispatch -/

theorem addjob_out_of_slot (g : Shell) (pid state : Int) (cmdline : String) (h : 1 ≤ pid)
    (pre post : List job_t) (j : job_t) (hj : g.jobs = pre ++ j :: post) (hj0 : j.pid = 0)
    (hpre : ∀ x ∈ pre, x.pid ≠ 0) :
    (addjob g pid state cmdline).2.out
      = (if g.verbose ≠ 0 then
          g.out ++ ("Added job [" ++ fmtd g.nextjid ++ "] " ++ fmtd pid ++ " " ++ cmdline
            ++ "\n")
        else g.out) ∧
    (addjob g pid state cmdline).2.sent = g.sent := by
  have hs : first_slot (fun j => j.pid == 0) (pre ++ j :: post) = some pre.length :=
    first_slot_append _ pre post j (fun x hx => by simpa using hpre x hx) (by simpa using hj0)
  have hp : ¬ pid < 1 := by omega
  by_cases hv : g.verbose = 0
  · simp [addjob, hp, hs, hv, hj]
  · simp [addjob, hp, hs, hv, hj, printf]

theorem slot_update_map (f : job_t → job_t) (i : Nat) (l : List job_t)
    (hf : ∀ j, ((f j).pid, (f j).jid, (f j).cmdline) = (j.pid, j.jid, j.cmdline)) :
    (slot_update f i l).map (fun j => (j.pid, j.jid, j.cmdline))
      = l.map (fun j => (j.pid, j.jid, j.cmdline)) := by
  induction l generalizing i with
  | nil => cases i <;> rfl
  | cons a l ih =>
    cases i with
    | zero => simp [slot_update, hf a]
    | succ i => simp [slot_update, ih i]

theorem do_bgfg_lookup_fields (g : Shell) (argv : List String) :
    (do_bgfg_lookup g argv).1.jobs = g.jobs ∧
    (do_bgfg_lookup g argv).1.nextjid = g.nextjid := by
  unfold do_bgfg_lookup
  split
  · exact ⟨rfl, rfl⟩
  · exact ⟨rfl, rfl⟩
  · dsimp only
    split
    · exact ⟨rfl, rfl⟩
    · split
      · split <;> exact ⟨rfl, rfl⟩
      · split <;> exact ⟨rfl, rfl⟩

theorem do_bgfg_apply_keeps (g : Shell) (cmd : String) (i : Nat) :
    (do_bgfg_apply g cmd i).1.jobs.map (fun j => (j.pid, j.jid, j.cmdline))
      = g.jobs.map (fun j => (j.pid, j.jid, j.cmdline)) ∧
    (do_bgfg_apply g cmd i).1.nextjid = g.nextjid := by
  unfold do_bgfg_apply
  split
  · exact ⟨slot_update_map _ i g.jobs (fun _ => rfl), rfl⟩
  · split
    · exact ⟨slot_update_map _ i g.jobs (fun _ => rfl), rfl⟩
    · exact ⟨rfl, rfl⟩

theorem do_bgfg_keeps (g : Shell) (argv : List String) :
    (do_bgfg g argv).1.jobs.map (fun j => (j.pid, j.jid, j.cmdline))
      = g.jobs.map (fun j => (j.pid, j.jid, j.cmdline)) ∧
    (do_bgfg g argv).1.nextjid = g.nextjid := by
  have hl := do_bgfg_lookup_fields g argv
  unfold do_bgfg
  split
  · rename_i g1 heq
    rw [heq] at hl
    exact ⟨by rw [show g1.jobs = g.jobs from hl.1], hl.2⟩
  · rename_i g1 i heq
    rw [heq] at hl
    have ha := do_bgfg_apply_keeps g1 (argv.headD "") i
    exact ⟨by rw [ha.1, show g1.jobs = g.jobs from hl.1], by rw [ha.2]; exact hl.2⟩

theorem eval_of_parseline (g : Shell) (cmdline : String) (pid : Int) (a : String)
    (as : List String) (hargv : (parseline cmdline).1 = a :: as) :
    eval g cmdline pid
      = match builtin_cmd g (a :: as) with
        | none => none
        | some (r, g1, w) =>
          if r = 0 then
            some ⟨(eval_parent g1 pid (parseline cmdline).2 cmdline).1, true,
              (eval_parent g1 pid (parseline cmdline).2 cmdline).2⟩
          else some ⟨g1, false, w⟩ := by
  unfold eval
  cases hp : parseline cmdline with
  | mk argv bg =>
    rw [hp] at hargv
    simp only at hargv
    subst hargv
    rfl


theorem builtin_cmd_other (g : Shell) (a : String) (as : List String)
    (h : a ≠ "quit" ∧ a ≠ "jobs" ∧ a ≠ "bg" ∧ a ≠ "fg") :
    builtin_cmd g (a :: as) = some (0, g, none) := by
  simp [builtin_cmd, h.1, h.2.1, h.2.2.1, h.2.2.2]

/-- C19 (counterexample): `sleep 5 &x` does not end in the background marker `&` (its last
token is `&x`), `fork` returns 100 and the table is empty; `eval` registers the job in
state `BG`, prints the background line and does not wait. -/
theorem eval_background_without_marker :
    parse_args "sleep 5 &x\n".data = ["sleep".data, "5".data, "&x".data] ∧
    (eval (init_shell 0) "sleep 5 &x\n" 100).map
      (fun r => (r.g.jobs.head?, r.g.out, r.wait))
      = some (some ⟨100, 1, BG, "sleep 5 &x\n"⟩, "[1] (100) sleep 5 &x\n", none) := by
  decide

/-- C19 (amended): for a command line whose first argument `a` is not a builtin name, when
`fork` returns a pid of at least 1 that no slot holds and the table has an empty slot,
`eval` calls `fork` and changes the table in one place: the first empty slot receives the
job with that pid, the job id `nextjid`, the command line as typed, and state `BG` if the
last token of the line begins with `&`, `FG` otherwise; all other slots are unchanged.  For
a background job it prints `[jid] (pid) cmdline` with the id just assigned (after the
`Added job` line of a verbose shell) and does not wait; for a foreground job it calls
`waitfg(pid)`.  When `a` is `jobs`, `bg` or `fg`, `fork` is not called, and the process
id, job id and command line of every slot and `nextjid` are unchanged. -/
theorem eval_job_mutation (g : Shell) (cmdline : String) (pid : Int) (a : String)
    (as : List String) (hargv : (parseline cmdline).1 = a :: as) :
    ((a ≠ "quit" ∧ a ≠ "jobs" ∧ a ≠ "bg" ∧ a ≠ "fg") →
      ∀ last : List Char, (parse_args cmdline.data).getLast? = some last →
      1 ≤ pid → (∀ x ∈ g.jobs, x.pid ≠ pid) → (∃ x ∈ g.jobs, x.pid = 0) →
      ∃ r pre j post, eval g cmdline pid = some r ∧ r.forked = true ∧
        g.jobs = pre ++ j :: post ∧ j.pid = 0 ∧ (∀ x ∈ pre, x.pid ≠ 0) ∧
        r.g.jobs = pre ++ { pid := pid, jid := g.nextjid,
                            state := (if last.head? = some '&' then BG else FG),
                            cmdline := cmdline } :: post ∧
        r.wait = (if last.head? = some '&' then none else some pid) ∧
        r.g.out = (if g.verbose ≠ 0 then
              g.out ++ ("Added job [" ++ fmtd g.nextjid ++ "] " ++ fmtd pid ++ " " ++ cmdline
                ++ "\n")
            else g.out)
          ++ (if last.head? = some '&' then
              "[" ++ fmtd g.nextjid ++ "] (" ++ fmtd pid ++ ") " ++ cmdline
            else "")) ∧
    ((a = "jobs" ∨ a = "bg" ∨ a = "fg") →
      ∃ r, eval g cmdline pid = some r ∧ r.forked = false ∧
        r.g.jobs.map (fun j => (j.pid, j.jid, j.cmdline))
          = g.jobs.map (fun j => (j.pid, j.jid, j.cmdline)) ∧
        r.g.nextjid = g.nextjid) := by
  have heval := eval_of_parseline g cmdline pid a as hargv
  constructor
  · intro hnb last hlast hpid hfresh hempty
    obtain ⟨pre, j, post, hj, hj0, hpre⟩ := first_holder g.jobs 0 hempty
    have hbg : (parseline cmdline).2 = (if last.head? = some '&' then 1 else 0) := by
      rw [parseline_eq, hlast]
      by_cases hl : last.head? = some '&' <;> simp [hl]
    rw [builtin_cmd_other g a as hnb] at heval
    simp only [if_true] at heval
    have hfp : ∀ x ∈ pre, x.pid ≠ pid := fun x hx => hfresh x (by simp [hj, hx])
    have hp1 : ¬ pid < 1 := by omega
    by_cases hl : last.head? = some '&'
    · obtain ⟨-, hjobs, -⟩ := addjob_of_slot g pid BG cmdline hpid pre post j hj hj0 hpre
      obtain ⟨hout, -⟩ := addjob_out_of_slot g pid BG cmdline hpid pre post j hj hj0 hpre
      have hjid : pid2jid (addjob g pid BG cmdline).2 pid = g.nextjid := by
        simp only [pid2jid, hp1, if_false, hjobs]
        exact pid2jid_scan_append pid pre post _ hfp rfl
      have h10 : ¬ ((1 : Int) = 0) := by decide
      refine ⟨_, pre, j, post, heval, rfl, hj, hj0, hpre, ?_, ?_, ?_⟩
      · simp only [hbg, hl, if_true, eval_parent, h10, if_false, printf]
        exact hjobs
      · simp only [hbg, hl, if_true, eval_parent, h10, if_false]
      · simp only [hbg, hl, if_true, eval_parent, h10, if_false, printf, hjid, hout]
    · obtain ⟨-, hjobs, -⟩ := addjob_of_slot g pid FG cmdline hpid pre post j hj hj0 hpre
      obtain ⟨hout, -⟩ := addjob_out_of_slot g pid FG cmdline hpid pre post j hj hj0 hpre
      refine ⟨_, pre, j, post, heval, rfl, hj, hj0, hpre, ?_, ?_, ?_⟩
      · simp only [hbg, hl, if_false, eval_parent, if_true]
        exact hjobs
      · simp only [hbg, hl, if_false, eval_parent, if_true]
      · simp only [hbg, hl, if_false, eval_parent, if_true, hout, String.append_empty]
  · intro hb
    have hk := do_bgfg_keeps g (a :: as)
    rcases hb with rfl | rfl | rfl
    · refine ⟨⟨listjobs g, false, none⟩, ?_, rfl, rfl, rfl⟩
      rw [heval]
      simp [builtin_cmd]
    · refine ⟨⟨(do_bgfg g ("bg" :: as)).1, false, (do_bgfg g ("bg" :: as)).2⟩, ?_, rfl,
        hk.1, hk.2⟩
      rw [heval]
      simp [builtin_cmd]
    · refine ⟨⟨(do_bgfg g ("fg" :: as)).1, false, (do_bgfg g ("fg" :: as)).2⟩, ?_, rfl,
        hk.1, hk.2⟩
      rw [heval]
      simp [builtin_cmd]

/-- Witness for C19 (amended): `sleep 5 &` on the empty table, `fork` returning 100. -/
theorem eval_job_mutation_witness :
    ∃ r pre j post, eval (init_shell 0) "sleep 5 &\n" 100 = some r ∧ r.forked = true ∧
      (init_shell 0).jobs = pre ++ j :: post ∧ j.pid = 0 ∧ (∀ x ∈ pre, x.pid ≠ 0) ∧
      r.g.jobs = pre ++ { pid := 100, jid := (init_shell 0).nextjid,
                          state := (if "&".data.head? = some '&' then BG else FG),
                          cmdline := "sleep 5 &\n" } :: post ∧
      r.wait = (if "&".data.head? = some '&' then none else some 100) ∧
      r.g.out = (if (init_shell 0).verbose ≠ 0 then
            (init_shell 0).out ++ ("Added job [" ++ fmtd (init_shell 0).nextjid ++ "] "
              ++ fmtd 100 ++ " " ++ "sleep 5 &\n" ++ "\n")
          else (init_shell 0).out)
        ++ (if "&".data.head? = some '&' then
            "[" ++ fmtd (init_shell 0).nextjid ++ "] (" ++ fmtd 100 ++ ") " ++ "sleep 5 &\n"
          else "") :=
  (eval_job_mutation (init_shell 0) "sleep 5 &\n" 100 "sleep" ["5"] (by decide)).1
    (by decide) "&".data (by decide) (by decide) (by decide)
    ⟨⟨0, 0, 0, ""⟩, by decide, rfl⟩


/-! ## The range of the job ids -/

theorem maxjid_foldl_ge (l : List job_t) (acc : Int) :
    acc ≤ l.foldl (fun max j => if j.jid > max then j.jid else max) acc := by
  induction l generalizing acc with
  | nil => exact le_refl _
  | cons a l ih =>
    simp only [List.foldl_cons]
    by_cases h : a.jid > acc
    · simp only [h, if_true]
      exact le_trans (le_of_lt h) (ih a.jid)
    · simp only [h, if_false]
      exact ih acc

theorem maxjid_nonneg (l : List job_t) : 0 ≤ maxjid l :=
  maxjid_foldl_ge l 0

theorem addjob_nextjid_inv (g : Shell) (pid state : Int) (cmdline : String)
    (h1 : 1 ≤ g.nextjid)
    (h2 : g.nextjid ≤ (MAXJOBS : Int) ∨ g.nextjid = maxjid g.jobs + 1) :
    1 ≤ (addjob g pid state cmdline).2.nextjid ∧
    ((addjob g pid state cmdline).2.nextjid ≤ (MAXJOBS : Int) ∨
      (addjob g pid state cmdline).2.nextjid = maxjid (addjob g pid state cmdline).2.jobs + 1) := by
  by_cases hp : pid < 1
  · rw [addjob_of_lt g pid state cmdline hp]
    exact ⟨h1, h2⟩
  · rcases addjob_cases g pid state cmdline with h0 | ⟨hp1, pre, j, post, hj, hj0, hpre⟩
    · by_cases hfull : ∀ x ∈ g.jobs, x.pid ≠ 0
      · rw [addjob_of_full g pid state cmdline (by omega) hfull]
        exact ⟨h1, h2⟩
      · exfalso
        obtain ⟨pre, j, post, hj, hj0, hpre⟩ :=
          first_holder g.jobs 0 (by
            by_contra hne
            exact hfull (fun x hx hx0 => hne ⟨x, hx, hx0⟩))
        have := (addjob_of_slot g pid state cmdline (by omega) pre post j hj hj0 hpre).1
        omega
    · obtain ⟨-, -, hn⟩ := addjob_of_slot g pid state cmdline hp1 pre post j hj hj0 hpre
      rw [hn]
      by_cases hw : g.nextjid + 1 > (MAXJOBS : Int)
      · simp only [hw, if_true]
        exact ⟨le_refl _, Or.inl (by decide)⟩
      · simp only [hw, if_false]
        exact ⟨by omega, Or.inl (by omega)⟩

theorem deletejob_nextjid_inv (g : Shell) (pid : Int) (h1 : 1 ≤ g.nextjid)
    (h2 : g.nextjid ≤ (MAXJOBS : Int) ∨ g.nextjid = maxjid g.jobs + 1) :
    1 ≤ (deletejob g pid).2.nextjid ∧
    ((deletejob g pid).2.nextjid ≤ (MAXJOBS : Int) ∨
      (deletejob g pid).2.nextjid = maxjid (deletejob g pid).2.jobs + 1) := by
  rcases deletejob_cases g pid with ⟨h0, -⟩ | ⟨hp, pre, j, post, hj, hjp, hpre⟩
  · rw [h0]; exact ⟨h1, h2⟩
  · rw [deletejob_of_slot g pid hp pre post j hj hjp hpre]
    have := maxjid_nonneg (pre ++ clearjob j :: post)
    exact ⟨by simp only; omega, Or.inr rfl⟩

theorem apply_ops_nextjid_inv (g : Shell) (ops : List table_op) (h1 : 1 ≤ g.nextjid)
    (h2 : g.nextjid ≤ (MAXJOBS : Int) ∨ g.nextjid = maxjid g.jobs + 1) :
    1 ≤ (apply_ops g ops).nextjid ∧
    ((apply_ops g ops).nextjid ≤ (MAXJOBS : Int) ∨
      (apply_ops g ops).nextjid = maxjid (apply_ops g ops).jobs + 1) := by
  induction ops generalizing g with
  | nil => exact ⟨h1, h2⟩
  | cons op ops ih =>
    have hstep : apply_ops g (op :: ops) = apply_ops (apply_op g op) ops := rfl
    rw [hstep]
    cases op with
    | add pid state cmdline =>
      obtain ⟨a, b⟩ := addjob_nextjid_inv g pid state cmdline h1 h2
      exact ih _ a b
    | del pid =>
      obtain ⟨a, b⟩ := deletejob_nextjid_inv g pid h1 h2
      exact ih _ a b

/-- C21 (counterexample): sixteen jobs with pids 1 to 16 fill the table with the ids 1 to
16; the job with pid 1 is removed, which sets `nextjid` to 17, and the next `addjob`
assigns the id 17, above the capacity; removing pid 2 and adding again assigns 18. -/
theorem addjob_jid_exceeds_capacity :
    (apply_ops (init_shell 0)
      [.add 1 BG "a\n", .add 2 BG "a\n", .add 3 BG "a\n", .add 4 BG "a\n", .add 5 BG "a\n",
       .add 6 BG "a\n", .add 7 BG "a\n", .add 8 BG "a\n", .add 9 BG "a\n", .add 10 BG "a\n",
       .add 11 BG "a\n", .add 12 BG "a\n", .add 13 BG "a\n", .add 14 BG "a\n",
       .add 15 BG "a\n", .add 16 BG "a\n", .del 1, .add 17 BG "a\n", .del 2,
       .add 18 BG "a\n"]).jobs.map (fun j => (j.pid, j.jid))
    = [(17, 17), (18, 18), (3, 3), (4, 4), (5, 5), (6, 6), (7, 7), (8, 8), (9, 9), (10, 10),
       (11, 11), (12, 12), (13, 13), (14, 14), (15, 15), (16, 16)] := by
  decide

/-- C21 (amended): in every state reached from the initialised table by calls of `addjob`
and `deletejob`, the counter `nextjid` is at least 1, and it is at most `MAXJOBS` or else
equal to `maxjid(jobs) + 1`, the value a successful `deletejob` leaves in it; a successful
`addjob` stores its job in the first empty slot with exactly that value as job id.  So
every job id assigned is at least 1, and at most `MAXJOBS` unless it is one more than the
largest job id in the table. -/
theorem addjob_jid_range (verbose : Int) (ops : List table_op) (pid state : Int)
    (cmdline : String) :
    1 ≤ (apply_ops (init_shell verbose) ops).nextjid ∧
    ((apply_ops (init_shell verbose) ops).nextjid ≤ (MAXJOBS : Int) ∨
      (apply_ops (init_shell verbose) ops).nextjid
        = maxjid (apply_ops (init_shell verbose) ops).jobs + 1) ∧
    ((addjob (apply_ops (init_shell verbose) ops) pid state cmdline).1 ≠ 0 →
      ∃ pre j post, (apply_ops (init_shell verbose) ops).jobs = pre ++ j :: post ∧
        j.pid = 0 ∧ (∀ x ∈ pre, x.pid ≠ 0) ∧
        (addjob (apply_ops (init_shell verbose) ops) pid state cmdline).2.jobs
          = pre ++ { pid := pid, jid := (apply_ops (init_shell verbose) ops).nextjid,
                     state := state, cmdline := cmdline } :: post) := by
  have hi1 : (1 : Int) ≤ (init_shell verbose).nextjid := by
    show (1 : Int) ≤ 1
    decide
  have hi2 : (init_shell verbose).nextjid ≤ (MAXJOBS : Int) := by
    show (1 : Int) ≤ (MAXJOBS : Int)
    decide
  obtain ⟨a, b⟩ := apply_ops_nextjid_inv (init_shell verbose) ops hi1 (Or.inl hi2)
  refine ⟨a, b, fun hok => ?_⟩
  rcases addjob_cases (apply_ops (init_shell verbose) ops) pid state cmdline with
    h0 | ⟨hp1, pre, j, post, hj, hj0, hpre⟩
  · exact absurd h0 hok
  · exact ⟨pre, j, post, hj, hj0, hpre,
      (addjob_of_slot _ pid state cmdline hp1 pre post j hj hj0 hpre).2.1⟩

/-- Witness for C21 (amended): after three jobs the next id is 4. -/
theorem addjob_jid_range_witness :
    ∃ pre j post, (apply_ops (init_shell 0)
        [.add 101 BG "a &\n", .add 102 BG "b &\n", .add 103 FG "c\n"]).jobs
        = pre ++ j :: post ∧
      j.pid = 0 ∧ (∀ x ∈ pre, x.pid ≠ 0) ∧
      (addjob (apply_ops (init_shell 0)
          [.add 101 BG "a &\n", .add 102 BG "b &\n", .add 103 FG "c\n"]) 104 BG "d &\n").2.jobs
        = pre ++ { pid := 104,
                   jid := (apply_ops (init_shell 0)
                     [.add 101 BG "a &\n", .add 102 BG "b &\n", .add 103 FG "c\n"]).nextjid,
                   state := BG, cmdline := "d &\n" } :: post :=
  (addjob_jid_range 0 [.add 101 BG "a &\n", .add 102 BG "b &\n", .add 103 FG "c\n"]
    104 BG "d &\n").2.2 (by decide)


/-! ## Slot well-formedness -/

theorem mem_slot_update (f : job_t → job_t) (i : Nat) (l : List job_t) (x : job_t)
    (h : x ∈ slot_update f i l) : x ∈ l ∨ ∃ j, l[i]? = some j ∧ x = f j := by
  obtain ⟨k, hk⟩ := List.mem_iff_getElem?.1 h
  rw [slot_update_getElem?] at hk
  by_cases hki : k = i
  · subst hki
    simp only [if_true] at hk
    obtain ⟨a, ha, hfa⟩ := Option.map_eq_some'.1 hk
    exact Or.inr ⟨a, ha, hfa.symm⟩
  · simp only [hki, if_false] at hk
    exact Or.inl (List.mem_iff_getElem?.2 ⟨k, hk⟩)

theorem slot_wf_live (j : job_t) (h : slot_wf j) (hl : 1 ≤ j.pid ∨ 1 ≤ j.jid) :
    1 ≤ j.pid ∧ 1 ≤ j.jid ∧ (j.state = FG ∨ j.state = BG ∨ j.state = ST) := by
  rcases h with ⟨h1, h2, -, -⟩ | h
  · omega
  · exact h

theorem slot_wf_set_state (j : job_t) (state : Int) (h : slot_wf j)
    (hl : 1 ≤ j.pid ∨ 1 ≤ j.jid) (hs : state = FG ∨ state = BG ∨ state = ST) :
    slot_wf { j with state := state } := by
  obtain ⟨h1, h2, -⟩ := slot_wf_live j h hl
  exact Or.inr ⟨h1, h2, hs⟩

theorem slot_wf_clearjob (j : job_t) : slot_wf (clearjob j) :=
  Or.inl ⟨rfl, rfl, rfl, rfl⟩

theorem table_wf_set_state (jobs : List job_t) (i : Nat) (j : job_t) (state : Int)
    (hwf : ∀ x ∈ jobs, slot_wf x) (hj : jobs[i]? = some j) (hl : 1 ≤ j.pid ∨ 1 ≤ j.jid)
    (hs : state = FG ∨ state = BG ∨ state = ST) :
    ∀ x ∈ slot_update (fun a => { a with state := state }) i jobs, slot_wf x := by
  intro x hx
  rcases mem_slot_update _ i jobs x hx with h | ⟨a, ha, rfl⟩
  · exact hwf x h
  · have : a = j := Option.some.inj (ha.symm.trans hj)
    subst this
    exact slot_wf_set_state a state (hwf a (List.mem_iff_getElem?.2 ⟨i, hj⟩)) hl hs

theorem addjob_wf (g : Shell) (pid state : Int) (cmdline : String) (hwf : shell_wf g)
    (hs : state = FG ∨ state = BG) : shell_wf (addjob g pid state cmdline).2 := by
  obtain ⟨hslots, hn⟩ := hwf
  by_cases hp : pid < 1
  · rw [addjob_of_lt g pid state cmdline hp]
    exact ⟨hslots, hn⟩
  · by_cases hfull : ∀ x ∈ g.jobs, x.pid ≠ 0
    · rw [addjob_of_full g pid state cmdline (by omega) hfull]
      exact ⟨hslots, hn⟩
    · obtain ⟨pre, j, post, hj, hj0, hpre⟩ :=
        first_holder g.jobs 0 (by
          by_contra hne
          exact hfull (fun x hx hx0 => hne ⟨x, hx, hx0⟩))
      obtain ⟨-, hjobs, hnext⟩ :=
        addjob_of_slot g pid state cmdline (by omega) pre post j hj hj0 hpre
      refine ⟨?_, ?_⟩
      · rw [hjobs]
        intro x hx
        rcases List.mem_append.1 hx with hx | hx
        · exact hslots x (by rw [hj]; exact List.mem_append_left _ hx)
        · rcases List.mem_cons.1 hx with rfl | hx
          · refine Or.inr ⟨by simp only; omega, hn, ?_⟩
            rcases hs with h | h
            · exact Or.inl h
            · exact Or.inr (Or.inl h)
          · exact hslots x (by rw [hj]; exact List.mem_append_right _ (List.mem_cons_of_mem _ hx))
      · rw [hnext]
        by_cases hw : g.nextjid + 1 > (MAXJOBS : Int)
        · simp only [hw, if_true]; exact le_refl _
        · simp only [hw, if_false]; omega

theorem deletejob_wf (g : Shell) (pid : Int) (hwf : shell_wf g) :
    shell_wf (deletejob g pid).2 := by
  obtain ⟨hslots, hn⟩ := hwf
  rcases deletejob_cases g pid with ⟨h0, -⟩ | ⟨hp, pre, j, post, hj, hjp, hpre⟩
  · rw [h0]; exact ⟨hslots, hn⟩
  · rw [deletejob_of_slot g pid hp pre post j hj hjp hpre]
    refine ⟨?_, ?_⟩
    · intro x hx
      rcases List.mem_append.1 hx with hx | hx
      · exact hslots x (by rw [hj]; exact List.mem_append_left _ hx)
      · rcases List.mem_cons.1 hx with rfl | hx
        · exact slot_wf_clearjob j
        · exact hslots x (by rw [hj]; exact List.mem_append_right _ (List.mem_cons_of_mem _ hx))
    · have := maxjid_nonneg (pre ++ clearjob j :: post)
      simp only
      omega

theorem getjobpid_slot (jobs : List job_t) (p : Int) (i : Nat)
    (h : getjobpid jobs p = some i) : ∃ j, jobs[i]? = some j ∧ 1 ≤ j.pid := by
  obtain ⟨hp, pre, j, post, hj, hlen, hjp, -⟩ := getjobpid_split jobs p i h
  exact ⟨j, by rw [hj, ← hlen]; exact getElem?_append_slot pre post j, by omega⟩

theorem getjobjid_slot (jobs : List job_t) (n : Int) (i : Nat)
    (h : getjobjid jobs n = some i) : ∃ j, jobs[i]? = some j ∧ 1 ≤ j.jid := by
  unfold getjobjid at h
  split at h
  · exact absurd h (by simp)
  · rename_i hn
    obtain ⟨pre, j, post, hj, hlen, hjn, -⟩ := first_slot_split _ _ _ h
    have hjn2 : j.jid = n := by simpa using hjn
    exact ⟨j, by rw [hj, ← hlen]; exact getElem?_append_slot pre post j, by omega⟩

theorem sigchld_handler_wf (g g1 : Shell) (pending rest : List (Int × wstatus))
    (hwf : shell_wf g) (h : sigchld_handler g pending = some (g1, rest)) : shell_wf g1 := by
  unfold sigchld_handler at h
  split at h
  rename_i pid stat rest0 _
  split at h
  · split at h
    · obtain ⟨rfl, -⟩ := Prod.mk.inj (Option.some.inj h)
      exact deletejob_wf (printf g _) pid hwf
    · split at h
      · split at h
        · exact absurd h (by simp)
        · rename_i i hget
          obtain ⟨rfl, -⟩ := Prod.mk.inj (Option.some.inj h)
          obtain ⟨j, hj, hj1⟩ := getjobpid_slot g.jobs pid i hget
          exact ⟨table_wf_set_state g.jobs i j ST hwf.1 hj (Or.inl hj1) (Or.inr (Or.inr rfl)),
            hwf.2⟩
      · obtain ⟨rfl, -⟩ := Prod.mk.inj (Option.some.inj h)
        exact deletejob_wf g pid hwf
  · obtain ⟨rfl, -⟩ := Prod.mk.inj (Option.some.inj h)
    exact hwf

theorem do_bgfg_lookup_some (g g1 : Shell) (argv : List String) (i : Nat)
    (h : do_bgfg_lookup g argv = (g1, some i)) :
    g1 = g ∧ ∃ j, g.jobs[i]? = some j ∧ (1 ≤ j.pid ∨ 1 ≤ j.jid) := by
  unfold do_bgfg_lookup at h
  split at h
  · exact absurd (Prod.mk.inj h).2 (by simp)
  · exact absurd (Prod.mk.inj h).2 (by simp)
  · dsimp only at h
    split at h
    · exact absurd (Prod.mk.inj h).2 (by simp)
    · split at h
      · split at h
        · exact absurd (Prod.mk.inj h).2 (by simp)
        · rename_i k hget
          obtain ⟨hg, hk⟩ := Prod.mk.inj h
          obtain rfl := Option.some.inj hk
          obtain ⟨j, hj, hj1⟩ := getjobjid_slot g.jobs _ k hget
          exact ⟨hg.symm, j, hj, Or.inr hj1⟩
      · split at h
        · exact absurd (Prod.mk.inj h).2 (by simp)
        · rename_i k hget
          obtain ⟨hg, hk⟩ := Prod.mk.inj h
          obtain rfl := Option.some.inj hk
          obtain ⟨j, hj, hj1⟩ := getjobpid_slot g.jobs _ k hget
          exact ⟨hg.symm, j, hj, Or.inl hj1⟩

theorem do_bgfg_wf (g : Shell) (argv : List String) (hwf : shell_wf g) :
    shell_wf (do_bgfg g argv).1 := by
  unfold do_bgfg
  split
  · rename_i g1 heq
    have hf := do_bgfg_lookup_fields g argv
    rw [heq] at hf
    exact ⟨by rw [show g1.jobs = g.jobs from hf.1]; exact hwf.1,
      by rw [show g1.nextjid = g.nextjid from hf.2]; exact hwf.2⟩
  · rename_i g1 i heq
    obtain ⟨rfl, j, hj, hl⟩ := do_bgfg_lookup_some g g1 argv i heq
    unfold do_bgfg_apply
    split
    · exact ⟨table_wf_set_state g1.jobs i j BG hwf.1 hj hl (Or.inr (Or.inl rfl)), hwf.2⟩
    · split
      · exact ⟨table_wf_set_state g1.jobs i j FG hwf.1 hj hl (Or.inl rfl), hwf.2⟩
      · exact hwf

theorem init_shell_wf (verbose : Int) : shell_wf (init_shell verbose) := by
  refine ⟨?_, ?_⟩
  · intro j hj
    simp only [init_shell, initjobs, List.mem_map] at hj
    obtain ⟨a, -, rfl⟩ := hj
    exact slot_wf_clearjob a
  · show (1 : Int) ≤ 1
    decide

theorem run_job_ops_wf (g g1 : Shell) (ops : List job_op) (hwf : shell_wf g)
    (hok : ∀ op ∈ ops, job_op_ok op) (hrun : run_job_ops g ops = some g1) : shell_wf g1 := by
  induction ops generalizing g with
  | nil =>
    simp only [run_job_ops] at hrun
    exact Option.some.inj hrun ▸ hwf
  | cons op ops ih =>
    simp only [run_job_ops] at hrun
    split at hrun
    · rename_i g2 heq
      refine ih g2 ?_ (fun o ho => hok o (List.mem_cons_of_mem _ ho)) hrun
      have hop := hok op (List.mem_cons_self _ _)
      cases op with
      | add pid state cmdline =>
        simp only [apply_job_op] at heq
        obtain rfl := Option.some.inj heq
        exact addjob_wf g pid state cmdline hwf hop
      | del pid =>
        simp only [apply_job_op] at heq
        obtain rfl := Option.some.inj heq
        exact deletejob_wf g pid hwf
      | reap pending =>
        simp only [apply_job_op] at heq
        obtain ⟨r, hr, rfl⟩ := Option.map_eq_some'.1 heq
        exact sigchld_handler_wf g r.1 pending r.2 hwf hr
      | bgfg argv =>
        simp only [apply_job_op] at heq
        obtain rfl := Option.some.inj heq
        exact do_bgfg_wf g argv hwf
    · exact absurd hrun (by simp)


theorem maxjid_foldl_ge_jid (l : List job_t) (acc : Int) :
    ∀ j ∈ l, j.jid ≤ l.foldl (fun max j => if j.jid > max then j.jid else max) acc := by
  induction l generalizing acc with
  | nil => intro j hj; simp at hj
  | cons a l ih =>
    intro j hj
    simp only [List.foldl_cons]
    rcases List.mem_cons.1 hj with rfl | hj
    · refine le_trans ?_ (maxjid_foldl_ge l _)
      by_cases h : j.jid > acc
      · simp [h]
      · simp only [h, if_false]; omega
    · exact ih _ j hj

theorem maxjid_ge_jid (l : List job_t) : ∀ j ∈ l, j.jid ≤ maxjid l :=
  maxjid_foldl_ge_jid l 0

theorem maxjid_zero_iff (jobs : List job_t) (hwf : ∀ j ∈ jobs, slot_wf j) :
    maxjid jobs = 0 ↔ ∀ j ∈ jobs, j.pid = 0 := by
  constructor
  · intro h0 j hj
    have hle := maxjid_ge_jid jobs j hj
    rcases hwf j hj with ⟨hp, -⟩ | ⟨-, hjid, -⟩
    · exact hp
    · omega
  · intro hall
    refine maxjid_of_clear jobs (fun x hx => ?_)
    rcases hwf x hx with ⟨hp, hjid, hst, hc⟩ | ⟨hp, -⟩
    · cases x
      simp only at hp hjid hst hc
      simp [clearjob, hp, hjid, hst, hc]
    · have := hall x hx
      omega

theorem listjobs_no_internal_error (jobs : List job_t) (hwf : ∀ j ∈ jobs, slot_wf j) :
    listjobs_internal_error jobs = false := by
  unfold listjobs_internal_error
  rw [List.any_eq_false]
  intro j hj
  rcases hwf j hj with ⟨hp, -⟩ | ⟨-, -, hs⟩
  · simp [hp]
  · rcases hs with h | h | h <;> simp [h]

end Tsh
